import Mathlib

/-!
Shallow embedding of `src/backend/core/audit_immutable.py`
(class `ImmutableAuditLogger`): canonical JSON serialization, hash-chained
audit entries, HMAC sealing, Merkle checkpoints, chain verification and
archival export.

Modelling conventions:
* `hashlib.sha256(·).hexdigest()` and `hmac.new(key, ·, sha256).hexdigest()`
  are external library primitives; they are modelled as parameters
  (`Crypto.sha256`, `Crypto.hmacSha256`).  All theorems about chain
  structure hold for every choice of these functions; statements that in
  the real system rest on collision resistance carry the corresponding
  inequality as an explicit hypothesis.
* `json.dumps(data, sort_keys=True, separators=(",", ":"), ensure_ascii=False)`
  is modelled by `canonical_json` over JSON dictionaries whose values are
  primitives or one nested dictionary of primitives — exactly the shapes
  the source serializes (the entry dict with its `details` sub-dict, the
  checkpoint dict, the export-signature dict).
* MongoDB collections are modelled as lists in insertion order;
  `find(...)/sort(...)` is modelled by `List.filter` plus a stable sort
  (`List.insertionSort`), `find_one(query, sort=[(k, -1)])` by the head of
  the descending sort, `to_list(length=N)` by `List.take N`.
* Python string comparison (used by `sort_keys=True`) is code-point
  lexicographic; `charListLt` implements exactly that on `String.data`.
-/

/-- Code-point lexicographic `<` on lists of characters, as Python compares
strings (and as `sort_keys=True` orders dictionary keys). -/
def charListLt : List Char → List Char → Bool
  | [], [] => false
  | [], _ :: _ => true
  | _ :: _, [] => false
  | a :: as, b :: bs => decide (a < b) || (decide (a = b) && charListLt as bs)

/-- Python `<` on strings. -/
def strLt (a b : String) : Bool := charListLt a.data b.data

/-- Python `<=` on strings. -/
def strLe (a b : String) : Bool := !(strLt b a)

theorem charListLt_irrefl : ∀ (a : List Char), charListLt a a = false
  | [] => rfl
  | a :: as => by
    simp only [charListLt, Bool.or_eq_false_iff, Bool.and_eq_false_iff]
    exact ⟨by simp, Or.inr (charListLt_irrefl as)⟩

theorem charListLt_asymm : ∀ {a b : List Char}, charListLt a b = true → charListLt b a = false
  | [], [], h => by simp [charListLt]
  | [], _ :: _, h => by simp [charListLt]
  | _ :: _, [], h => by simp [charListLt] at h
  | a :: as, b :: bs, h => by
    simp only [charListLt, Bool.or_eq_true, Bool.and_eq_true, decide_eq_true_eq] at h
    simp only [charListLt, Bool.or_eq_false_iff, Bool.and_eq_false_iff, decide_eq_false_iff_not]
    rcases h with hab | ⟨rfl, h⟩
    · exact ⟨fun h' => absurd hab (not_lt.mpr (le_of_lt h')),
        Or.inl (fun h' => absurd hab (h' ▸ lt_irrefl _))⟩
    · exact ⟨lt_irrefl _, Or.inr (charListLt_asymm h)⟩

theorem charListLt_trichotomy :
    ∀ (a b : List Char), charListLt a b = true ∨ charListLt b a = true ∨ a = b
  | [], [] => Or.inr (Or.inr rfl)
  | [], _ :: _ => Or.inl rfl
  | _ :: _, [] => Or.inr (Or.inl rfl)
  | a :: as, b :: bs => by
    simp only [charListLt, Bool.or_eq_true, Bool.and_eq_true, decide_eq_true_eq]
    rcases lt_trichotomy a b with h | h | h
    · exact Or.inl (Or.inl h)
    · subst h
      rcases charListLt_trichotomy as bs with h | h | h
      · exact Or.inl (Or.inr ⟨rfl, h⟩)
      · exact Or.inr (Or.inl (Or.inr ⟨rfl, h⟩))
      · exact Or.inr (Or.inr (by simp [h]))
    · exact Or.inr (Or.inl (Or.inl h))

theorem charListLt_trans :
    ∀ {a b c : List Char}, charListLt a b = true → charListLt b c = true → charListLt a c = true
  | [], _ :: _, _ :: _, _, _ => rfl
  | [], [], _, h, _ => by simp [charListLt] at h
  | _ :: _, [], _, h, _ => by simp [charListLt] at h
  | _ :: _, _ :: _, [], _, h => by simp [charListLt] at h
  | a :: as, b :: bs, c :: cs, h₁, h₂ => by
    simp only [charListLt, Bool.or_eq_true, Bool.and_eq_true, decide_eq_true_eq] at h₁ h₂ ⊢
    rcases h₁ with hab | ⟨rfl, h₁⟩
    · rcases h₂ with hbc | ⟨rfl, _⟩
      · exact Or.inl (lt_trans hab hbc)
      · exact Or.inl hab
    · rcases h₂ with hbc | ⟨rfl, h₂⟩
      · exact Or.inl hbc
      · exact Or.inr ⟨rfl, charListLt_trans h₁ h₂⟩

theorem strLe_total (a b : String) : strLe a b = true ∨ strLe b a = true := by
  unfold strLe strLt
  rcases charListLt_trichotomy a.data b.data with h | h | h
  · exact Or.inl (by simp [charListLt_asymm h])
  · exact Or.inr (by simp [charListLt_asymm h])
  · exact Or.inl (by simp [h, charListLt_irrefl])

theorem strLe_trans {a b c : String} (h₁ : strLe a b = true) (h₂ : strLe b c = true) :
    strLe a c = true := by
  unfold strLe strLt at *
  simp only [Bool.not_eq_true'] at h₁ h₂ ⊢
  by_contra h
  simp only [Bool.not_eq_false] at h
  rcases charListLt_trichotomy a.data b.data with hab | hab | hab
  · rcases charListLt_trichotomy b.data c.data with hbc | hbc | hbc
    · exact absurd (charListLt_trans (charListLt_trans hab hbc) h) (by simp [charListLt_irrefl])
    · exact absurd hbc (by simp [h₂])
    · exact absurd (charListLt_trans hab (hbc ▸ h)) (by simp [charListLt_irrefl])
  · exact absurd hab (by simp [h₁])
  · rcases charListLt_trichotomy b.data c.data with hbc | hbc | hbc
    · exact absurd (charListLt_trans hbc (hab ▸ h)) (by simp [charListLt_irrefl])
    · exact absurd hbc (by simp [h₂])
    · exact absurd (hab ▸ hbc ▸ h) (by simp [charListLt_irrefl])

theorem strLe_antisymm {a b : String} (h₁ : strLe a b = true) (h₂ : strLe b a = true) : a = b := by
  unfold strLe strLt at h₁ h₂
  simp only [Bool.not_eq_true'] at h₁ h₂
  rcases charListLt_trichotomy a.data b.data with h | h | h
  · exact absurd h (by simp [h₂])
  · exact absurd h (by simp [h₁])
  · cases a; cases b; exact congrArg String.mk (by simpa using h)

/-- Key ordering on dictionary items, as Python's `sorted` orders
`dict.items()` under `sort_keys=True`. -/
def keyLE {α : Type} (a b : String × α) : Prop := strLe a.1 b.1 = true

instance {α : Type} : DecidableRel (keyLE (α := α)) :=
  fun a b => inferInstanceAs (Decidable (strLe a.1 b.1 = true))

instance {α : Type} : IsTotal (String × α) keyLE := ⟨fun a b => strLe_total a.1 b.1⟩

instance {α : Type} : IsTrans (String × α) keyLE := ⟨fun _ _ _ => strLe_trans⟩

/-- JSON primitive values. -/
inductive Jprim where
  | null : Jprim
  | bool (b : Bool) : Jprim
  | str (s : String) : Jprim
  | int (n : Int) : Jprim
deriving DecidableEq

/-- A JSON dictionary with primitive values (e.g. the `details` field). -/
abbrev Jobj := List (String × Jprim)

/-- A value inside a top-level dictionary: a primitive or one nested
dictionary of primitives.  This covers every dictionary the source passes
to `canonical_json`. -/
inductive Jval where
  | prim (p : Jprim) : Jval
  | obj (fs : Jobj) : Jval
deriving DecidableEq

def hexDigit (n : Nat) : Char :=
  if n < 10 then Char.ofNat (48 + n) else Char.ofNat (87 + n)

/-- Escaping of one character inside a JSON string, as `json.dumps` with
`ensure_ascii=False` escapes it. -/
def escapeChar (c : Char) : String :=
  if c = '"' then "\\\""
  else if c = '\\' then "\\\\"
  else if c = '\n' then "\\n"
  else if c = '\r' then "\\r"
  else if c = '\t' then "\\t"
  else if c = '\x08' then "\\b"
  else if c = '\x0c' then "\\f"
  else if c.toNat < 32 then
    "\\u00" ++ String.mk [hexDigit (c.toNat / 16), hexDigit (c.toNat % 16)]
  else String.singleton c

def jsonEscape (s : String) : String := String.join (s.data.map escapeChar)

def jsonString (s : String) : String := "\"" ++ jsonEscape s ++ "\""

def dumpPrim : Jprim → String
  | .null => "null"
  | .bool true => "true"
  | .bool false => "false"
  | .str s => jsonString s
  | .int n => toString n

/-- Serialization of a nested dictionary of primitives with sorted keys and
`","`/`":"` separators. -/
def dumpObj (fs : Jobj) : String :=
  "\x7b" ++
    String.intercalate ","
      ((List.insertionSort keyLE fs).map (fun kv => jsonString kv.1 ++ ":" ++ dumpPrim kv.2)) ++
  "\x7d"

def dumpVal : Jval → String
  | .prim p => dumpPrim p
  | .obj fs => dumpObj fs

/-- `ImmutableAuditLogger.canonical_json`:
`json.dumps(data, sort_keys=True, separators=(",", ":"), ensure_ascii=False)`
for a top-level dictionary. -/
def canonical_json (d : List (String × Jval)) : String :=
  "\x7b" ++
    String.intercalate ","
      ((List.insertionSort keyLE d).map (fun kv => jsonString kv.1 ++ ":" ++ dumpVal kv.2)) ++
  "\x7d"

/-- The signing interface: SHA-256 hex digest and keyed HMAC-SHA256 hex
digest, modelled as abstract string functions (library primitives). -/
structure Crypto where
  sha256 : String → String
  hmacSha256 : String → String → String

/-- `ImmutableAuditLogger` with its (cached) signing key resolved. -/
structure Logger where
  crypto : Crypto
  signingKey : String

/-- `ImmutableAuditLogger._compute_hash`. -/
def Logger.compute_hash (L : Logger) (data : String) : String := L.crypto.sha256 data

/-- `ImmutableAuditLogger._compute_hmac`. -/
def Logger.compute_hmac (L : Logger) (data : String) : String :=
  L.crypto.hmacSha256 L.signingKey data

/-- `CHECKPOINT_INTERVAL = 100`. -/
def CHECKPOINT_INTERVAL : Nat := 100

/-- The zero-hash sentinel `"0" * 64`. -/
def zeroHash : String := String.mk (List.replicate 64 '0')

/-- A document of the `audit_logs_v2` collection, as `log_event` persists it. -/
structure Entry where
  id : String
  orgId : String
  sequence : Nat
  timestamp : String
  actor : String
  action : String
  entity : String
  entityId : Option String
  details : Jobj
  requestId : Option String
  ipAddress : Option String
  userAgent : Option String
  prevHash : String
  entryHash : String
  signature : String
  sealed : Bool
deriving DecidableEq

/-- A document of the `audit_checkpoints` collection. -/
structure Checkpoint where
  id : String
  orgId : String
  fromSequence : Nat
  upToSequence : Nat
  entryCount : Nat
  merkleRoot : String
  timestamp : String
  signature : String
deriving DecidableEq

/-- The two MongoDB collections, in insertion (natural) order. -/
structure Store where
  audit_logs : List Entry
  checkpoints : List Checkpoint
deriving DecidableEq

def emptyStore : Store := ⟨[], []⟩

def optPrim : Option String → Jval
  | some s => .prim (.str s)
  | none => .prim .null

/-- The `entry_data` dictionary assembled by `log_event` (and re-assembled
by `verify_entry`), in source order. -/
def entryContentData (id orgId : String) (sequence : Nat)
    (timestamp actor action entity : String) (entityId : Option String) (details : Jobj)
    (requestId ipAddress userAgent : Option String) (prevHash : String) :
    List (String × Jval) :=
  [("id", .prim (.str id)),
   ("orgId", .prim (.str orgId)),
   ("sequence", .prim (.int sequence)),
   ("timestamp", .prim (.str timestamp)),
   ("actor", .prim (.str actor)),
   ("action", .prim (.str action)),
   ("entity", .prim (.str entity)),
   ("entityId", optPrim entityId),
   ("details", .obj details),
   ("requestId", optPrim requestId),
   ("ipAddress", optPrim ipAddress),
   ("userAgent", optPrim userAgent),
   ("prevHash", .prim (.str prevHash))]

/-- The `entry_data` dictionary `verify_entry` reconstructs from a stored
entry (lines 196-210 of the source). -/
def Entry.contentData (e : Entry) : List (String × Jval) :=
  entryContentData e.id e.orgId e.sequence e.timestamp e.actor e.action e.entity
    e.entityId e.details e.requestId e.ipAddress e.userAgent e.prevHash

/-- Ascending sort key used by `.sort("sequence", 1)`. -/
def seqAsc (a b : Entry) : Prop := a.sequence ≤ b.sequence

instance : DecidableRel seqAsc := fun a b => inferInstanceAs (Decidable (a.sequence ≤ b.sequence))

/-- Descending sort key used by `sort=[("sequence", -1)]`. -/
def seqDesc (a b : Entry) : Prop := b.sequence ≤ a.sequence

instance : DecidableRel seqDesc := fun a b => inferInstanceAs (Decidable (b.sequence ≤ a.sequence))

/-- Descending sort key used by `sort=[("upToSequence", -1)]`. -/
def upToDesc (a b : Checkpoint) : Prop := b.upToSequence ≤ a.upToSequence

instance : DecidableRel upToDesc :=
  fun a b => inferInstanceAs (Decidable (b.upToSequence ≤ a.upToSequence))

/-- `audit_logs.find({"orgId": org_id})` in natural order. -/
def entriesOf (st : Store) (org_id : String) : List Entry :=
  st.audit_logs.filter (fun e => e.orgId == org_id)

/-- `checkpoints.find({"orgId": org_id})` in natural order. -/
def checkpointsOf (st : Store) (org_id : String) : List Checkpoint :=
  st.checkpoints.filter (fun c => c.orgId == org_id)

/-- `ImmutableAuditLogger.get_last_entry`:
`find_one({"orgId": org_id}, sort=[("sequence", -1)])`. -/
def get_last_entry (st : Store) (org_id : String) : Option Entry :=
  (List.insertionSort seqDesc (entriesOf st org_id)).head?

/-- `ImmutableAuditLogger.get_next_sequence`. -/
def get_next_sequence (st : Store) (org_id : String) : Nat :=
  match get_last_entry st org_id with
  | some last_entry => last_entry.sequence + 1
  | none => 1

/-- `checkpoints.find_one({"orgId": org_id}, sort=[("upToSequence", -1)])`. -/
def lastCheckpointOf (st : Store) (org_id : String) : Option Checkpoint :=
  (List.insertionSort upToDesc (checkpointsOf st org_id)).head?

/-- `if hashes_len % 2 == 1: hashes.append(hashes[-1])` — pad to even length. -/
def padEven (hashes : List String) : List String :=
  if hashes.length % 2 = 1 then hashes ++ [hashes.getLast!] else hashes

/-- `for i in range(0, len(hashes), 2): parent_level.append(hash(h[i] + h[i+1]))`. -/
def pairPairs (L : Logger) : List String → List String
  | a :: b :: rest => L.compute_hash (a ++ b) :: pairPairs L rest
  | _ => []

theorem pairPairs_length (L : Logger) : ∀ (l : List String), (pairPairs L l).length = l.length / 2
  | [] => rfl
  | [_] => by simp [pairPairs]
  | _ :: _ :: rest => by
    simp only [pairPairs, List.length_cons, pairPairs_length L rest]
    omega

theorem padEven_length (l : List String) : (padEven l).length = l.length + l.length % 2 := by
  unfold padEven
  split <;> simp <;> omega

/-- `ImmutableAuditLogger._compute_merkle_root`. -/
def compute_merkle_root (L : Logger) (hashes : List String) : String :=
  match h : hashes with
  | [] => zeroHash
  | [x] => x
  | _ :: _ :: _ => compute_merkle_root L (pairPairs L (padEven hashes))
termination_by hashes.length
decreasing_by
  simp only [pairPairs_length, padEven_length, h]
  simp only [List.length_cons]
  omega

/-- The checkpoint dictionary `_create_checkpoint` assembles and signs
(source order: id, orgId, fromSequence, upToSequence, entryCount,
merkleRoot, timestamp). -/
def checkpointContentData (id orgId : String) (fromSequence upToSequence entryCount : Nat)
    (merkleRoot timestamp : String) : List (String × Jval) :=
  [("id", .prim (.str id)),
   ("orgId", .prim (.str orgId)),
   ("fromSequence", .prim (.int fromSequence)),
   ("upToSequence", .prim (.int upToSequence)),
   ("entryCount", .prim (.int entryCount)),
   ("merkleRoot", .prim (.str merkleRoot)),
   ("timestamp", .prim (.str timestamp))]

/-- The same dictionary re-assembled from a stored checkpoint's content
fields (everything but `signature`). -/
def Checkpoint.contentData (c : Checkpoint) : List (String × Jval) :=
  checkpointContentData c.id c.orgId c.fromSequence c.upToSequence c.entryCount
    c.merkleRoot c.timestamp

/-- `ImmutableAuditLogger._create_checkpoint`.  `ckpt_id` models the fresh
`uuid4`, `ckpt_now` the wall-clock timestamp. -/
def create_checkpoint (L : Logger) (st : Store) (ckpt_id ckpt_now : String)
    (org_id : String) (up_to_sequence : Nat) : Store × String :=
  let last_checkpoint := lastCheckpointOf st org_id
  let from_sequence : Nat :=
    match last_checkpoint with
    | some c => c.upToSequence + 1
    | none => 1
  let entries :=
    (List.insertionSort seqAsc
        (st.audit_logs.filter (fun e =>
          e.orgId == org_id && decide (from_sequence ≤ e.sequence) &&
            decide (e.sequence ≤ up_to_sequence)))).take
      (CHECKPOINT_INTERVAL + 10)
  let hashes := entries.map (fun e => e.entryHash)
  let merkle_root := compute_merkle_root L hashes
  let checkpoint_data :=
    checkpointContentData ckpt_id org_id from_sequence up_to_sequence entries.length
      merkle_root ckpt_now
  let canonical := canonical_json checkpoint_data
  let signature := L.compute_hmac canonical
  let ck : Checkpoint :=
    ⟨ckpt_id, org_id, from_sequence, up_to_sequence, entries.length, merkle_root,
      ckpt_now, signature⟩
  ({ st with checkpoints := st.checkpoints ++ [ck] }, ckpt_id)

/-- Environment inputs a single `log_event` call draws from the runtime:
the wall clock reading, the fresh entry uuid, and (if a checkpoint fires)
the checkpoint's uuid and wall clock reading. -/
structure Env where
  now : String
  entry_id : String
  ckpt_id : String
  ckpt_now : String
deriving DecidableEq

/-- The caller-supplied arguments of `log_event`. -/
structure LogArgs where
  actor : String
  org_id : String
  action : String
  entity : String
  entity_id : Option String := none
  details : Option Jobj := none
  request_id : Option String := none
  ip_address : Option String := none
  user_agent : Option String := none
deriving DecidableEq

/-- `ImmutableAuditLogger.log_event`.  Returns the updated store and the
new entry's id. -/
def log_event (L : Logger) (st : Store) (env : Env) (a : LogArgs) : Store × String :=
  let sequence := get_next_sequence st a.org_id
  let last_entry := get_last_entry st a.org_id
  let prev_hash :=
    match last_entry with
    | some e => e.entryHash
    | none => zeroHash
  let entry_data :=
    entryContentData env.entry_id a.org_id sequence env.now a.actor a.action a.entity
      a.entity_id (a.details.getD []) a.request_id a.ip_address a.user_agent prev_hash
  let canonical := canonical_json entry_data
  let entry_hash := L.compute_hash canonical
  let signature := L.compute_hmac (canonical ++ entry_hash)
  let doc : Entry :=
    ⟨env.entry_id, a.org_id, sequence, env.now, a.actor, a.action, a.entity, a.entity_id,
      a.details.getD [], a.request_id, a.ip_address, a.user_agent, prev_hash, entry_hash,
      signature, true⟩
  let st1 : Store := { st with audit_logs := st.audit_logs ++ [doc] }
  let st2 :=
    if sequence % CHECKPOINT_INTERVAL = 0 then
      (create_checkpoint L st1 env.ckpt_id env.ckpt_now a.org_id sequence).1
    else st1
  (st2, env.entry_id)

/-- The result dictionary of `verify_entry`. -/
structure VerifyEntryResult where
  valid : Bool
  error : Option String := none
  entry_id : Option String := none
deriving DecidableEq

/-- `ImmutableAuditLogger.verify_entry`. -/
def verify_entry (L : Logger) (st : Store) (entry_id : String) : VerifyEntryResult :=
  match st.audit_logs.find? (fun e => e.id == entry_id) with
  | none => { valid := false, error := some "Entry not found" }
  | some entry =>
    let canonical := canonical_json entry.contentData
    let expected_hash := L.compute_hash canonical
    if entry.entryHash ≠ expected_hash then
      { valid := false, error := some "Hash mismatch - content tampered" }
    else
      let expected_sig := L.compute_hmac (canonical ++ expected_hash)
      if entry.signature ≠ expected_sig then
        { valid := false, error := some "Signature mismatch - tampering detected" }
      else
        { valid := true, entry_id := some entry_id }

/-- One element of the `issues` list of `verify_chain`. -/
structure Issue where
  sequence : Nat
  type : String
  message : String
deriving DecidableEq

/-- The result dictionary of `verify_chain` (`lastSequence` is absent from
the empty-ledger early return, hence an `Option`). -/
structure ChainReport where
  valid : Bool
  totalVerified : Nat
  issues : List Issue
  lastSequence : Option Nat
deriving DecidableEq

/-- The `for entry in entries:` loop of `verify_chain`, threading
`expected_prev_hash` (always updated to the *stored* `entryHash`). -/
def verifyChainLoop (L : Logger) (st : Store) : String → List Entry → List Issue
  | _, [] => []
  | expected_prev_hash, entry :: rest =>
    (if entry.prevHash ≠ expected_prev_hash then
      [⟨entry.sequence, "chain_break", "Chain break at sequence " ++ toString entry.sequence⟩]
    else []) ++
    (let result := verify_entry L st entry.id
     if result.valid then [] else
       [⟨entry.sequence, "integrity_failure", result.error.getD ""⟩]) ++
    verifyChainLoop L st entry.entryHash rest

/-- `ImmutableAuditLogger.verify_chain`. -/
def verify_chain (L : Logger) (st : Store) (org_id : String) (limit : Nat := 1000) :
    ChainReport :=
  let entries := (List.insertionSort seqAsc (entriesOf st org_id)).take limit
  if entries.isEmpty then
    { valid := true, totalVerified := 0, issues := [], lastSequence := none }
  else
    let issues := verifyChainLoop L st zeroHash entries
    { valid := issues.length == 0
      totalVerified := entries.length
      issues := issues
      lastSequence :=
        match entries.getLast? with
        | some e => some e.sequence
        | none => some 0 }

/-- Python truthiness of the optional `to_sequence` argument
(`if to_sequence:` — both `None` and `0` are falsy). -/
def truthy : Option Nat → Bool
  | some n => n != 0
  | none => false

/-- The export dictionary built by `export_for_archive`. -/
structure ExportPackage where
  orgId : String
  exportedAt : String
  fromSequence : Nat
  toSequence : Nat
  entryCount : Nat
  entries : List Entry
  checkpoints : List Checkpoint
  exportSignature : String
deriving DecidableEq

/-- `ImmutableAuditLogger.export_for_archive`.  `exported_at` models the
wall-clock reading. -/
def export_for_archive (L : Logger) (st : Store) (exported_at org_id : String)
    (from_sequence : Nat := 1) (to_sequence : Option Nat := none) : ExportPackage :=
  let entries :=
    (List.insertionSort seqAsc
        (st.audit_logs.filter (fun e =>
          e.orgId == org_id && decide (from_sequence ≤ e.sequence) &&
            (if truthy to_sequence then decide (e.sequence ≤ to_sequence.getD 0) else true)))).take
      10000
  let checkpoints :=
    (st.checkpoints.filter (fun c =>
        c.orgId == org_id && decide (from_sequence ≤ c.fromSequence) &&
          (if truthy to_sequence then decide (c.upToSequence ≤ to_sequence.getD 0)
           else true))).take
      1000
  let toSequence : Nat :=
    match entries.getLast? with
    | some e => e.sequence
    | none => from_sequence
  let sig_data : List (String × Jval) :=
    [("orgId", .prim (.str org_id)),
     ("fromSequence", .prim (.int from_sequence)),
     ("toSequence", .prim (.int toSequence)),
     ("entryCount", .prim (.int entries.length))]
  { orgId := org_id
    exportedAt := exported_at
    fromSequence := from_sequence
    toSequence := toSequence
    entryCount := entries.length
    entries := entries
    checkpoints := checkpoints
    exportSignature := L.compute_hmac (canonical_json sig_data) }

/-- One call of a multi-call scenario: the environment inputs plus the
caller arguments of one `log_event`. -/
structure Call where
  env : Env
  args : LogArgs
deriving DecidableEq

/-- A sequence of successful `log_event` calls against the same logger. -/
def runCalls (L : Logger) : Store → List Call → Store
  | st, [] => st
  | st, c :: rest => runCalls L (log_event L st c.env c.args).1 rest

/-! ### Sorting infrastructure

Both MongoDB sorts in the source run over lists whose sort key is strictly
increasing in insertion order (a consequence of the chain invariant), so
the ascending sort is the identity and the descending sort is reversal. -/

instance : IsTotal Entry seqAsc := ⟨fun a b => Nat.le_total a.sequence b.sequence⟩

instance : IsTrans Entry seqAsc := ⟨fun _ _ _ h₁ h₂ => Nat.le_trans h₁ h₂⟩

instance : IsTotal Entry seqDesc := ⟨fun a b => Nat.le_total b.sequence a.sequence⟩

instance : IsTrans Entry seqDesc := ⟨fun _ _ _ h₁ h₂ => Nat.le_trans h₂ h₁⟩

instance : IsTotal Checkpoint upToDesc := ⟨fun a b => Nat.le_total b.upToSequence a.upToSequence⟩

instance : IsTrans Checkpoint upToDesc := ⟨fun _ _ _ h₁ h₂ => Nat.le_trans h₂ h₁⟩

/-- A list whose `Nat` key is strictly increasing is unchanged by the
ascending insertion sort. -/
theorem insertionSort_eq_self_of_key_lt {α : Type} (key : α → Nat) (r : α → α → Prop)
    [DecidableRel r] (hr : ∀ a b, key a ≤ key b → r a b) (l : List α)
    (h : l.Pairwise fun a b => key a < key b) :
    List.insertionSort r l = l :=
  List.Sorted.insertionSort_eq (h.imp fun hab => hr _ _ (Nat.le_of_lt hab))

/-- A list whose `Nat` key is strictly increasing is reversed by the
descending insertion sort. -/
theorem insertionSort_desc_eq_reverse {α : Type} (key : α → Nat) (r : α → α → Prop)
    [DecidableRel r] [IsTotal α r] [IsTrans α r] (hr : ∀ a b, r a b ↔ key b ≤ key a)
    (l : List α) (h : l.Pairwise fun a b => key a < key b) :
    List.insertionSort r l = l.reverse := by
  have hperm : List.Perm (List.insertionSort r l) l := List.perm_insertionSort r l
  have hsorted : List.Pairwise r (List.insertionSort r l) := List.sorted_insertionSort r l
  have hne : List.Pairwise (fun a b => key a ≠ key b) l := h.imp fun hab => Nat.ne_of_lt hab
  have hne' : List.Pairwise (fun a b => key a ≠ key b) (List.insertionSort r l) :=
    (hperm.pairwise_iff fun hab => (hab ∘ Eq.symm)).mpr hne
  have hstrict : List.Pairwise (fun a b => key b < key a) (List.insertionSort r l) :=
    (hsorted.and hne').imp fun hab =>
      Nat.lt_of_le_of_ne ((hr _ _).mp hab.1) (Ne.symm hab.2)
  have hrev : List.Pairwise (fun a b => key b < key a) l.reverse :=
    List.pairwise_reverse.mpr h
  haveI : IsAntisymm α fun a b => key b < key a :=
    ⟨fun _ _ h₁ h₂ => absurd h₂ (Nat.lt_asymm h₁)⟩
  exact List.eq_of_perm_of_sorted (hperm.trans (List.reverse_perm l).symm) hstrict hrev

/-- `find_one(sort=[(key, -1)])` on a key-strictly-increasing list returns
its last element. -/
theorem head?_insertionSort_desc {α : Type} (key : α → Nat) (r : α → α → Prop)
    [DecidableRel r] [IsTotal α r] [IsTrans α r] (hr : ∀ a b, r a b ↔ key b ≤ key a)
    (l : List α) (h : l.Pairwise fun a b => key a < key b) :
    (List.insertionSort r l).head? = l.getLast? := by
  rw [insertionSort_desc_eq_reverse key r hr l h, List.head?_reverse]

/-! ### The hash-chain predicate -/

/-- `chainFrom prev n l`: the entries of `l`, in list order, have
consecutive sequence numbers starting at `n` and form a hash chain whose
first `prevHash` is `prev` and in which every later `prevHash` equals the
predecessor's stored `entryHash`. -/
def chainFrom : String → Nat → List Entry → Prop
  | _, _, [] => True
  | prev, n, e :: rest => e.prevHash = prev ∧ e.sequence = n ∧ chainFrom e.entryHash (n + 1) rest

/-- The chain-linkage part alone (no sequence-number constraint): what the
`chain_break` check of `verify_chain` tests. -/
def chainLinked : String → List Entry → Prop
  | _, [] => True
  | prev, e :: rest => e.prevHash = prev ∧ chainLinked e.entryHash rest

theorem chainFrom_chainLinked : ∀ {p : String} {n : Nat} {l : List Entry},
    chainFrom p n l → chainLinked p l
  | _, _, [], _ => trivial
  | _, _, _ :: _, ⟨h₁, _, h₃⟩ => ⟨h₁, chainFrom_chainLinked h₃⟩

theorem chainFrom_mem_ge : ∀ {p : String} {n : Nat} {l : List Entry},
    chainFrom p n l → ∀ e ∈ l, n ≤ e.sequence
  | _, _, [], _, e, he => absurd he (List.not_mem_nil e)
  | _, _, x :: rest, ⟨_, h₂, h₃⟩, e, he => by
    rcases List.mem_cons.mp he with rfl | he'
    · exact Nat.le_of_eq h₂.symm
    · exact Nat.le_trans (Nat.le_succ _) (h₂ ▸ chainFrom_mem_ge h₃ e he')

theorem chainFrom_pairwise_lt : ∀ {p : String} {n : Nat} {l : List Entry},
    chainFrom p n l → l.Pairwise fun a b => a.sequence < b.sequence
  | _, _, [], _ => List.Pairwise.nil
  | _, _, x :: rest, ⟨_, h₂, h₃⟩ => by
    refine List.pairwise_cons.mpr ⟨fun e he => ?_, chainFrom_pairwise_lt h₃⟩
    exact Nat.lt_of_lt_of_le (h₂ ▸ Nat.lt_succ_self _) (chainFrom_mem_ge h₃ e he)

theorem chainFrom_getLast?_seq : ∀ {p : String} {n : Nat} {l : List Entry},
    chainFrom p n l → ∀ e, l.getLast? = some e → e.sequence + 1 = n + l.length
  | _, _, [], _, e, he => by simp at he
  | _, _, [x], ⟨_, h₂, _⟩, e, he => by
    simp only [List.getLast?_singleton, Option.some.injEq] at he
    subst he
    simp [h₂]
  | _, _, x :: y :: rest, ⟨_, h₂, h₃⟩, e, he => by
    rw [List.getLast?_cons_cons] at he
    have := chainFrom_getLast?_seq h₃ e he
    simp only [List.length_cons] at this ⊢
    omega

/-- The hash the next appended entry must carry as `prevHash`. -/
def lastHash (p : String) (l : List Entry) : String :=
  match l.getLast? with
  | some e => e.entryHash
  | none => p

theorem chainFrom_snoc : ∀ {p : String} {n : Nat} {l : List Entry} {e : Entry},
    chainFrom p n l → e.prevHash = lastHash p l → e.sequence = n + l.length →
    chainFrom p n (l ++ [e])
  | p, n, [], e, _, hprev, hseq => by
    refine ⟨?_, ?_, trivial⟩
    · simpa [lastHash] using hprev
    · simpa using hseq
  | p, n, x :: rest, e, ⟨h₁, h₂, h₃⟩, hprev, hseq => by
    refine ⟨h₁, h₂, chainFrom_snoc h₃ ?_ ?_⟩
    · cases rest with
      | nil => simpa [lastHash] using hprev
      | cons y ys => simpa [lastHash, List.getLast?_cons_cons] using hprev
    · simp only [List.length_cons] at hseq
      omega

theorem lastHash_cons (p : String) (x : Entry) (rest : List Entry) :
    lastHash p (x :: rest) = lastHash x.entryHash rest := by
  cases rest with
  | nil => simp [lastHash]
  | cons y ys =>
    cases hgl : (y :: ys).getLast? with
    | none => simp at hgl
    | some e => simp [lastHash, List.getLast?_cons_cons, hgl]

theorem chainLinked_append {l₁ : List Entry} : ∀ {p : String} {l₂ : List Entry},
    chainLinked p (l₁ ++ l₂) ↔ chainLinked p l₁ ∧ chainLinked (lastHash p l₁) l₂ := by
  induction l₁ with
  | nil => intro p l₂; simp [chainLinked, lastHash]
  | cons x rest ih =>
    intro p l₂
    simp only [List.cons_append, chainLinked, lastHash_cons, List.append_eq, ih, and_assoc]

/-! ### Decomposition of `log_event` -/

/-- The document `log_event` inserts into `audit_logs_v2`. -/
def logDoc (L : Logger) (st : Store) (env : Env) (a : LogArgs) : Entry :=
  let sequence := get_next_sequence st a.org_id
  let last_entry := get_last_entry st a.org_id
  let prev_hash :=
    match last_entry with
    | some e => e.entryHash
    | none => zeroHash
  let entry_data :=
    entryContentData env.entry_id a.org_id sequence env.now a.actor a.action a.entity
      a.entity_id (a.details.getD []) a.request_id a.ip_address a.user_agent prev_hash
  let canonical := canonical_json entry_data
  let entry_hash := L.compute_hash canonical
  let signature := L.compute_hmac (canonical ++ entry_hash)
  ⟨env.entry_id, a.org_id, sequence, env.now, a.actor, a.action, a.entity, a.entity_id,
    a.details.getD [], a.request_id, a.ip_address, a.user_agent, prev_hash, entry_hash,
    signature, true⟩

/-- The checkpoint document `_create_checkpoint` inserts into
`audit_checkpoints`. -/
def ckptDoc (L : Logger) (st : Store) (ckpt_id ckpt_now : String) (org_id : String)
    (up_to_sequence : Nat) : Checkpoint :=
  let last_checkpoint := lastCheckpointOf st org_id
  let from_sequence : Nat :=
    match last_checkpoint with
    | some c => c.upToSequence + 1
    | none => 1
  let entries :=
    (List.insertionSort seqAsc
        (st.audit_logs.filter (fun e =>
          e.orgId == org_id && decide (from_sequence ≤ e.sequence) &&
            decide (e.sequence ≤ up_to_sequence)))).take
      (CHECKPOINT_INTERVAL + 10)
  let hashes := entries.map (fun e => e.entryHash)
  let merkle_root := compute_merkle_root L hashes
  let checkpoint_data :=
    checkpointContentData ckpt_id org_id from_sequence up_to_sequence entries.length
      merkle_root ckpt_now
  let canonical := canonical_json checkpoint_data
  let signature := L.compute_hmac canonical
  ⟨ckpt_id, org_id, from_sequence, up_to_sequence, entries.length, merkle_root,
    ckpt_now, signature⟩

theorem create_checkpoint_fst (L : Logger) (st : Store) (cid cts org : String) (upTo : Nat) :
    (create_checkpoint L st cid cts org upTo).1 =
      { st with checkpoints := st.checkpoints ++ [ckptDoc L st cid cts org upTo] } := rfl

theorem log_event_fst (L : Logger) (st : Store) (env : Env) (a : LogArgs) :
    (log_event L st env a).1 =
      (if get_next_sequence st a.org_id % CHECKPOINT_INTERVAL = 0 then
        (create_checkpoint L { st with audit_logs := st.audit_logs ++ [logDoc L st env a] }
          env.ckpt_id env.ckpt_now a.org_id (get_next_sequence st a.org_id)).1
      else { st with audit_logs := st.audit_logs ++ [logDoc L st env a] }) := rfl

theorem log_event_audit_logs (L : Logger) (st : Store) (env : Env) (a : LogArgs) :
    ((log_event L st env a).1).audit_logs = st.audit_logs ++ [logDoc L st env a] := by
  rw [log_event_fst]
  split <;> rfl

theorem log_event_checkpoints (L : Logger) (st : Store) (env : Env) (a : LogArgs) :
    ((log_event L st env a).1).checkpoints =
      (if get_next_sequence st a.org_id % CHECKPOINT_INTERVAL = 0 then
        st.checkpoints ++
          [ckptDoc L { st with audit_logs := st.audit_logs ++ [logDoc L st env a] }
            env.ckpt_id env.ckpt_now a.org_id (get_next_sequence st a.org_id)]
      else st.checkpoints) := by
  rw [log_event_fst]
  split <;> rfl

theorem logDoc_orgId (L : Logger) (st : Store) (env : Env) (a : LogArgs) :
    (logDoc L st env a).orgId = a.org_id := rfl

theorem logDoc_id (L : Logger) (st : Store) (env : Env) (a : LogArgs) :
    (logDoc L st env a).id = env.entry_id := rfl

theorem logDoc_sequence (L : Logger) (st : Store) (env : Env) (a : LogArgs) :
    (logDoc L st env a).sequence = get_next_sequence st a.org_id := rfl

theorem logDoc_prevHash (L : Logger) (st : Store) (env : Env) (a : LogArgs) :
    (logDoc L st env a).prevHash =
      (match get_last_entry st a.org_id with
       | some e => e.entryHash
       | none => zeroHash) := rfl

theorem logDoc_entryHash (L : Logger) (st : Store) (env : Env) (a : LogArgs) :
    (logDoc L st env a).entryHash =
      L.compute_hash (canonical_json (logDoc L st env a).contentData) := rfl

theorem logDoc_signature (L : Logger) (st : Store) (env : Env) (a : LogArgs) :
    (logDoc L st env a).signature =
      L.compute_hmac
        (canonical_json (logDoc L st env a).contentData ++ (logDoc L st env a).entryHash) := rfl

theorem ckptDoc_orgId (L : Logger) (st : Store) (cid cts org : String) (upTo : Nat) :
    (ckptDoc L st cid cts org upTo).orgId = org := rfl

theorem ckptDoc_upToSequence (L : Logger) (st : Store) (cid cts org : String) (upTo : Nat) :
    (ckptDoc L st cid cts org upTo).upToSequence = upTo := rfl

theorem ckptDoc_fromSequence (L : Logger) (st : Store) (cid cts org : String) (upTo : Nat) :
    (ckptDoc L st cid cts org upTo).fromSequence =
      (match lastCheckpointOf st org with
       | some c => c.upToSequence + 1
       | none => 1) := rfl

theorem ckptDoc_signature (L : Logger) (st : Store) (cid cts org : String) (upTo : Nat) :
    (ckptDoc L st cid cts org upTo).signature =
      L.compute_hmac (canonical_json (ckptDoc L st cid cts org upTo).contentData) := rfl

theorem entriesOf_log_event (L : Logger) (st : Store) (env : Env) (a : LogArgs) (org : String) :
    entriesOf ((log_event L st env a).1) org =
      entriesOf st org ++ (if a.org_id = org then [logDoc L st env a] else []) := by
  show List.filter _ ((log_event L st env a).1).audit_logs = _
  rw [log_event_audit_logs, List.filter_append]
  by_cases hc : a.org_id = org
  · simp [List.filter_cons, logDoc_orgId, hc, entriesOf]
  · simp [List.filter_cons, logDoc_orgId, hc, entriesOf]

theorem checkpointsOf_audit_append (st : Store) (d : Entry) (org : String) :
    checkpointsOf { st with audit_logs := st.audit_logs ++ [d] } org =
      checkpointsOf st org := rfl

theorem entriesOf_checkpoint_append (st : Store) (c : Checkpoint) (org : String) :
    entriesOf { st with checkpoints := st.checkpoints ++ [c] } org = entriesOf st org := rfl

theorem checkpointsOf_log_event (L : Logger) (st : Store) (env : Env) (a : LogArgs)
    (org : String) :
    checkpointsOf ((log_event L st env a).1) org =
      checkpointsOf st org ++
        (if get_next_sequence st a.org_id % CHECKPOINT_INTERVAL = 0 ∧ a.org_id = org then
          [ckptDoc L { st with audit_logs := st.audit_logs ++ [logDoc L st env a] }
            env.ckpt_id env.ckpt_now a.org_id (get_next_sequence st a.org_id)]
        else []) := by
  show List.filter _ ((log_event L st env a).1).checkpoints = _
  rw [log_event_checkpoints]
  by_cases h1 : get_next_sequence st a.org_id % CHECKPOINT_INTERVAL = 0
  · rw [if_pos h1, List.filter_append]
    by_cases h2 : a.org_id = org
    · subst h2
      simp [List.filter_cons, ckptDoc_orgId, h1, checkpointsOf]
    · simp [List.filter_cons, ckptDoc_orgId, h1, h2, checkpointsOf]
  · simp [h1, checkpointsOf]

/-! ### The chain invariant and its preservation -/

/-- Every tenant's entry list (in insertion order) is a well-formed hash
chain starting at the zero-hash sentinel with sequence 1. -/
def ChainInv (st : Store) : Prop := ∀ org, chainFrom zeroHash 1 (entriesOf st org)

theorem ChainInv_empty : ChainInv emptyStore := fun _ => trivial

theorem get_last_entry_eq (st : Store) (org : String)
    (h : List.Pairwise (fun a b : Entry => a.sequence < b.sequence) (entriesOf st org)) :
    get_last_entry st org = (entriesOf st org).getLast? :=
  head?_insertionSort_desc Entry.sequence seqDesc (fun _ _ => Iff.rfl) _ h

theorem get_next_sequence_eq (st : Store) (org : String)
    (h : chainFrom zeroHash 1 (entriesOf st org)) :
    get_next_sequence st org = (entriesOf st org).length + 1 := by
  unfold get_next_sequence
  rw [get_last_entry_eq st org (chainFrom_pairwise_lt h)]
  cases hgl : (entriesOf st org).getLast? with
  | none =>
    have : entriesOf st org = [] := by simpa using hgl
    simp [this]
  | some e =>
    have h2 := chainFrom_getLast?_seq h e hgl
    show e.sequence + 1 = (entriesOf st org).length + 1
    omega

theorem logDoc_chain_spec (L : Logger) (st : Store) (env : Env) (a : LogArgs)
    (h : chainFrom zeroHash 1 (entriesOf st a.org_id)) :
    (logDoc L st env a).prevHash = lastHash zeroHash (entriesOf st a.org_id) ∧
    (logDoc L st env a).sequence = 1 + (entriesOf st a.org_id).length := by
  constructor
  · rw [logDoc_prevHash, get_last_entry_eq st a.org_id (chainFrom_pairwise_lt h)]
    unfold lastHash
    rfl
  · rw [logDoc_sequence, get_next_sequence_eq st a.org_id h]
    omega

theorem ChainInv_log_event (L : Logger) (st : Store) (env : Env) (a : LogArgs)
    (h : ChainInv st) : ChainInv ((log_event L st env a).1) := by
  intro org
  rw [entriesOf_log_event]
  by_cases hc : a.org_id = org
  · rw [if_pos hc]
    obtain ⟨h1, h2⟩ := logDoc_chain_spec L st env a (h a.org_id)
    subst hc
    exact chainFrom_snoc (h a.org_id) h1 h2
  · simp only [if_neg hc, List.append_nil]
    exact h org

/-! ### Seal invariants: stored hashes and signatures recompute -/

/-- Every stored entry's `entryHash`/`signature` are exactly what
recomputation over its stored content yields. -/
def SealInv (L : Logger) (st : Store) : Prop :=
  ∀ e ∈ st.audit_logs,
    e.entryHash = L.compute_hash (canonical_json e.contentData) ∧
    e.signature = L.compute_hmac (canonical_json e.contentData ++ e.entryHash)

theorem SealInv_empty (L : Logger) : SealInv L emptyStore := fun e he => absurd he (List.not_mem_nil e)

theorem SealInv_log_event (L : Logger) (st : Store) (env : Env) (a : LogArgs)
    (h : SealInv L st) : SealInv L ((log_event L st env a).1) := by
  intro e he
  rw [log_event_audit_logs] at he
  rcases List.mem_append.mp he with he | he
  · exact h e he
  · have hd : e = logDoc L st env a := by simpa using he
    subst hd
    exact ⟨logDoc_entryHash L st env a, logDoc_signature L st env a⟩

/-- Every stored checkpoint's `signature` is the HMAC of its own canonical
content. -/
def CkSealInv (L : Logger) (st : Store) : Prop :=
  ∀ c ∈ st.checkpoints, c.signature = L.compute_hmac (canonical_json c.contentData)

theorem CkSealInv_empty (L : Logger) : CkSealInv L emptyStore :=
  fun c hc => absurd hc (List.not_mem_nil c)

theorem CkSealInv_log_event (L : Logger) (st : Store) (env : Env) (a : LogArgs)
    (h : CkSealInv L st) : CkSealInv L ((log_event L st env a).1) := by
  intro c hc
  rw [log_event_checkpoints] at hc
  by_cases hck : get_next_sequence st a.org_id % CHECKPOINT_INTERVAL = 0
  · rw [if_pos hck] at hc
    rcases List.mem_append.mp hc with hc | hc
    · exact h c hc
    · have hd :
          c = ckptDoc L { st with audit_logs := st.audit_logs ++ [logDoc L st env a] }
            env.ckpt_id env.ckpt_now a.org_id (get_next_sequence st a.org_id) := by
        simpa using hc
      subst hd
      exact ckptDoc_signature L _ _ _ _ _
  · rw [if_neg hck] at hc
    exact h c hc

/-! ### The checkpoint-range invariant -/

/-- The `(fromSequence, upToSequence)` ranges of a checkpoint list. -/
def ckptRanges (l : List Checkpoint) : List (Nat × Nat) :=
  l.map fun c => (c.fromSequence, c.upToSequence)

/-- The ranges `[1,100], [101,200], …` of the first `m` checkpoints. -/
def expectedRanges (m : Nat) : List (Nat × Nat) :=
  (List.range m).map fun i => (CHECKPOINT_INTERVAL * i + 1, CHECKPOINT_INTERVAL * (i + 1))

/-- Every tenant's checkpoints tile `[1, 100·m]` contiguously, where `m` is
its entry count divided by the checkpoint interval. -/
def CkRangeInv (st : Store) : Prop :=
  ∀ org, ckptRanges (checkpointsOf st org) =
    expectedRanges ((entriesOf st org).length / CHECKPOINT_INTERVAL)

theorem CkRangeInv_empty : CkRangeInv emptyStore := by
  intro org
  simp [ckptRanges, expectedRanges, checkpointsOf, entriesOf, emptyStore]

theorem ckptRanges_append (l₁ l₂ : List Checkpoint) :
    ckptRanges (l₁ ++ l₂) = ckptRanges l₁ ++ ckptRanges l₂ := List.map_append _ _ _

theorem expectedRanges_pairwise (m : Nat) :
    List.Pairwise (fun a b : Nat × Nat => a.2 < b.2) (expectedRanges m) := by
  unfold expectedRanges
  rw [List.pairwise_map]
  refine (List.sorted_lt_range m).imp ?_
  intro i j hij
  show CHECKPOINT_INTERVAL * (i + 1) < CHECKPOINT_INTERVAL * (j + 1)
  unfold CHECKPOINT_INTERVAL
  omega

theorem expectedRanges_succ (m : Nat) :
    expectedRanges (m + 1) =
      expectedRanges m ++ [(CHECKPOINT_INTERVAL * m + 1, CHECKPOINT_INTERVAL * (m + 1))] := by
  unfold expectedRanges
  rw [List.range_succ, List.map_append]
  rfl

theorem ckpt_pairwise_of_ranges {l : List Checkpoint} {m : Nat}
    (h : ckptRanges l = expectedRanges m) :
    List.Pairwise (fun a b : Checkpoint => a.upToSequence < b.upToSequence) l := by
  have hp := expectedRanges_pairwise m
  rw [← h] at hp
  unfold ckptRanges at hp
  rw [List.pairwise_map] at hp
  exact hp

theorem lastCheckpointOf_eq (st : Store) (org : String)
    (h : List.Pairwise (fun a b : Checkpoint => a.upToSequence < b.upToSequence)
      (checkpointsOf st org)) :
    lastCheckpointOf st org = (checkpointsOf st org).getLast? :=
  head?_insertionSort_desc Checkpoint.upToSequence upToDesc (fun _ _ => Iff.rfl) _ h

theorem CkRangeInv_log_event (L : Logger) (st : Store) (env : Env) (a : LogArgs)
    (hchain : ChainInv st) (h : CkRangeInv st) : CkRangeInv ((log_event L st env a).1) := by
  intro org
  rw [checkpointsOf_log_event, entriesOf_log_event]
  by_cases horg : a.org_id = org
  · subst horg
    have hseq : get_next_sequence st a.org_id = (entriesOf st a.org_id).length + 1 :=
      get_next_sequence_eq st a.org_id (hchain a.org_id)
    set n := (entriesOf st a.org_id).length with hn
    set m := n / CHECKPOINT_INTERVAL with hm
    have hinv : ckptRanges (checkpointsOf st a.org_id) = expectedRanges m := h a.org_id
    have hlen : (entriesOf st a.org_id ++ [logDoc L st env a]).length = n + 1 := by
      simp [hn]
    by_cases hmod : get_next_sequence st a.org_id % CHECKPOINT_INTERVAL = 0
    · rw [if_pos ⟨hmod, rfl⟩, if_pos rfl]
      set st1 : Store := { st with audit_logs := st.audit_logs ++ [logDoc L st env a] }
        with hst1
      set ck := ckptDoc L st1 env.ckpt_id env.ckpt_now a.org_id (get_next_sequence st a.org_id)
        with hckdef
      have hpw := ckpt_pairwise_of_ranges hinv
      have hlast : lastCheckpointOf st1 a.org_id = (checkpointsOf st a.org_id).getLast? :=
        lastCheckpointOf_eq st a.org_id hpw
      have harith : n + 1 = CHECKPOINT_INTERVAL * (m + 1) ∧
          (n + 1) / CHECKPOINT_INTERVAL = m + 1 := by
        rw [hseq] at hmod
        unfold CHECKPOINT_INTERVAL at hmod hm ⊢
        omega
      have hfrom : ck.fromSequence = CHECKPOINT_INTERVAL * m + 1 := by
        rw [hckdef, ckptDoc_fromSequence, hlast]
        cases hm0 : m with
        | zero =>
          have hrnil : ckptRanges (checkpointsOf st a.org_id) = [] := by
            rw [hinv, hm0]; rfl
          have hnil : checkpointsOf st a.org_id = [] := by
            unfold ckptRanges at hrnil
            exact List.map_eq_nil_iff.mp hrnil
          rw [hnil]
          simp [CHECKPOINT_INTERVAL]
        | succ k =>
          have hgl : (ckptRanges (checkpointsOf st a.org_id)).getLast? =
              some (CHECKPOINT_INTERVAL * k + 1, CHECKPOINT_INTERVAL * (k + 1)) := by
            rw [hinv, hm0, expectedRanges_succ, List.getLast?_concat]
          unfold ckptRanges at hgl
          rw [List.getLast?_map] at hgl
          cases hc : (checkpointsOf st a.org_id).getLast? with
          | none => rw [hc] at hgl; simp at hgl
          | some c =>
            rw [hc] at hgl
            simp only [Option.map_some', Option.some.injEq, Prod.mk.injEq] at hgl
            show c.upToSequence + 1 = CHECKPOINT_INTERVAL * (k + 1) + 1
            rw [hgl.2]
      have hupto : ck.upToSequence = n + 1 := by
        rw [hckdef, ckptDoc_upToSequence, hseq]
      rw [ckptRanges_append, hinv]
      have hsingle : ckptRanges [ck] = [(CHECKPOINT_INTERVAL * m + 1,
          CHECKPOINT_INTERVAL * (m + 1))] := by
        show [(ck.fromSequence, ck.upToSequence)] = _
        rw [hfrom, hupto, harith.1]
      rw [hsingle, ← expectedRanges_succ, hlen, harith.2]
    · have hcond : ¬(get_next_sequence st a.org_id % CHECKPOINT_INTERVAL = 0 ∧
          a.org_id = a.org_id) := fun hand => hmod hand.1
      rw [if_neg hcond, if_pos rfl, List.append_nil]
      have hdiv : (n + 1) / CHECKPOINT_INTERVAL = m := by
        rw [hseq] at hmod
        unfold CHECKPOINT_INTERVAL at hmod hm ⊢
        omega
      rw [hlen, hdiv]
      exact hinv
  · have hcond : ¬(get_next_sequence st a.org_id % CHECKPOINT_INTERVAL = 0 ∧
        a.org_id = org) := fun hand => horg hand.2
    rw [if_neg hcond, if_neg horg, List.append_nil, List.append_nil]
    exact h org

/-! ### The combined trace invariant -/

def TraceInv (L : Logger) (st : Store) : Prop :=
  ChainInv st ∧ CkRangeInv st ∧ SealInv L st ∧ CkSealInv L st

theorem TraceInv_empty (L : Logger) : TraceInv L emptyStore :=
  ⟨ChainInv_empty, CkRangeInv_empty, SealInv_empty L, CkSealInv_empty L⟩

theorem TraceInv_log_event (L : Logger) (st : Store) (env : Env) (a : LogArgs)
    (h : TraceInv L st) : TraceInv L ((log_event L st env a).1) :=
  ⟨ChainInv_log_event L st env a h.1,
   CkRangeInv_log_event L st env a h.1 h.2.1,
   SealInv_log_event L st env a h.2.2.1,
   CkSealInv_log_event L st env a h.2.2.2⟩

theorem TraceInv_runCalls (L : Logger) (calls : List Call) :
    ∀ st : Store, TraceInv L st → TraceInv L (runCalls L st calls) := by
  induction calls with
  | nil => exact fun _ h => h
  | cons c rest ih =>
    intro st h
    exact ih _ (TraceInv_log_event L st c.env c.args h)

theorem TraceInv_trace (L : Logger) (calls : List Call) :
    TraceInv L (runCalls L emptyStore calls) :=
  TraceInv_runCalls L calls emptyStore (TraceInv_empty L)

/-! ### Concrete instances used by witnesses -/

/-- A toy instantiation of the two crypto primitives (prefix-marking
functions); used only to instantiate witnesses and counterexamples. -/
def toyCrypto : Crypto := ⟨fun s => "#" ++ s, fun key data => "!" ++ key ++ "|" ++ data⟩

def toyLogger : Logger := ⟨toyCrypto, "test-signing-key"⟩

/-- A batch of `n` identical `log_event` calls for one tenant, with fresh
ids/timestamps drawn from the call index. -/
def mkCalls (org : String) (n : Nat) : List Call :=
  (List.range n).map fun i =>
    { env := { now := "t" ++ toString i, entry_id := "e" ++ toString i,
               ckpt_id := "c" ++ toString i, ckpt_now := "ct" ++ toString i }
      args := { actor := "admin", org_id := org, action := "LOGIN", entity := "session" } }

theorem entriesOf_runCalls_length (L : Logger) (calls : List Call) (org : String) :
    ∀ st : Store, (entriesOf (runCalls L st calls) org).length =
      (entriesOf st org).length + calls.countP (fun c => c.args.org_id == org) := by
  induction calls with
  | nil => intro st; simp [runCalls]
  | cons c rest ih =>
    intro st
    show (entriesOf (runCalls L (log_event L st c.env c.args).1 rest) org).length = _
    rw [ih, entriesOf_log_event, List.countP_cons]
    by_cases hc : c.args.org_id = org
    · simp [hc]
      omega
    · simp [hc]

theorem mkCalls_countP (org : String) (n : Nat) :
    (mkCalls org n).countP (fun c => c.args.org_id == org) = n := by
  unfold mkCalls
  rw [List.countP_map]
  simp [Function.comp_def]

/-- C1: for every tenant, after any sequence of successful `log_event`
calls starting from an empty ledger, the entries ordered by `sequence`
form an unbroken hash chain: the first entry has sequence 1 and `prevHash`
equal to 64 ASCII `'0'` characters, and every entry with sequence `n > 1`
has sequence exactly one greater than its predecessor and `prevHash` equal
to the predecessor's `entryHash`. -/
theorem C1_hash_chain (L : Logger) (calls : List Call) (org : String) :
    chainFrom zeroHash 1
        (List.insertionSort seqAsc (entriesOf (runCalls L emptyStore calls) org)) ∧
      zeroHash = "0000000000000000000000000000000000000000000000000000000000000000" := by
  refine ⟨?_, by decide⟩
  have h := (TraceInv_trace L calls).1 org
  rwa [insertionSort_eq_self_of_key_lt Entry.sequence seqAsc (fun _ _ hab => hab) _
    (chainFrom_pairwise_lt h)]

/-- C5: a checkpoint is created exactly when the new entry's sequence is a
multiple of `CHECKPOINT_INTERVAL = 100`; `fromSequence` is the previous
checkpoint's `upToSequence + 1` (or 1 if none); consequently after any
trace every tenant's checkpoints tile `[1, 100], [101, 200], …`
contiguously and without overlap, and appending 250 entries to one tenant
yields exactly the checkpoints `[1,100]` and `[101,200]`, with entries
201–250 uncheckpointed. -/
theorem C5_checkpoint_cadence_and_tiling :
    (∀ (L : Logger) (st : Store) (env : Env) (a : LogArgs),
      ((log_event L st env a).1).checkpoints.length =
        st.checkpoints.length +
          (if get_next_sequence st a.org_id % CHECKPOINT_INTERVAL = 0 then 1 else 0)) ∧
    (∀ (L : Logger) (st : Store) (cid cts org : String) (upTo : Nat),
      (ckptDoc L st cid cts org upTo).fromSequence =
        (match lastCheckpointOf st org with
         | some c => c.upToSequence + 1
         | none => 1)) ∧
    (∀ (L : Logger) (calls : List Call) (org : String),
      ckptRanges (checkpointsOf (runCalls L emptyStore calls) org) =
        expectedRanges
          ((entriesOf (runCalls L emptyStore calls) org).length / CHECKPOINT_INTERVAL)) ∧
    (∀ L : Logger,
      (entriesOf (runCalls L emptyStore (mkCalls "ORG-1" 250)) "ORG-1").length = 250 ∧
      ckptRanges (checkpointsOf (runCalls L emptyStore (mkCalls "ORG-1" 250)) "ORG-1") =
        [(1, 100), (101, 200)]) := by
  refine ⟨?_, ?_, ?_, ?_⟩
  · intro L st env a
    rw [log_event_checkpoints]
    by_cases hc : get_next_sequence st a.org_id % CHECKPOINT_INTERVAL = 0
    · simp [hc]
    · simp [hc]
  · intro L st cid cts org upTo
    exact ckptDoc_fromSequence L st cid cts org upTo
  · intro L calls org
    exact (TraceInv_trace L calls).2.1 org
  · intro L
    have hlen : (entriesOf (runCalls L emptyStore (mkCalls "ORG-1" 250)) "ORG-1").length = 250 := by
      rw [entriesOf_runCalls_length, mkCalls_countP]
      rfl
    refine ⟨hlen, ?_⟩
    rw [(TraceInv_trace L (mkCalls "ORG-1" 250)).2.1 "ORG-1", hlen]
    decide

/-- C4: the Merkle root of no leaves is the zero-hash sentinel, of one
leaf is that leaf itself; otherwise the last leaf is duplicated when the
count is odd, adjacent pairs are replaced by `SHA256(left ‖ right)`, and
the process repeats until one hash remains; consequently the root is a
deterministic function of the ordered leaf list. -/
theorem C4_merkle_structure (L : Logger) :
    compute_merkle_root L [] = zeroHash ∧
    (∀ h : String, compute_merkle_root L [h] = h) ∧
    (∀ (a b : String) (l : List String),
      compute_merkle_root L (a :: b :: l) =
        compute_merkle_root L (pairPairs L (padEven (a :: b :: l)))) ∧
    (∀ l : List String, padEven l = if l.length % 2 = 1 then l ++ [l.getLast!] else l) ∧
    (∀ (a b : String) (l : List String),
      pairPairs L (a :: b :: l) = L.compute_hash (a ++ b) :: pairPairs L l) ∧
    (∀ a b c : String,
      compute_merkle_root L [a, b, c] =
        L.compute_hash (L.compute_hash (a ++ b) ++ L.compute_hash (c ++ c))) ∧
    (∀ l₁ l₂ : List String, l₁ = l₂ → compute_merkle_root L l₁ = compute_merkle_root L l₂) := by
  refine ⟨by rw [compute_merkle_root], fun h => by rw [compute_merkle_root],
    fun a b l => by rw [compute_merkle_root], fun l => rfl, fun a b l => rfl,
    fun a b c => ?_, fun l₁ l₂ h => h ▸ rfl⟩
  have hpad3 : padEven [a, b, c] = [a, b, c, c] := by
    simp [padEven, List.getLast!_cons, List.getLastD]
  calc compute_merkle_root L [a, b, c]
      = compute_merkle_root L (pairPairs L (padEven [a, b, c])) := by
        rw [compute_merkle_root]
    _ = compute_merkle_root L [L.compute_hash (a ++ b), L.compute_hash (c ++ c)] := by
        rw [hpad3]
        rfl
    _ = compute_merkle_root L
          (pairPairs L (padEven [L.compute_hash (a ++ b), L.compute_hash (c ++ c)])) := by
        rw [compute_merkle_root]
    _ = compute_merkle_root L
          [L.compute_hash (L.compute_hash (a ++ b) ++ L.compute_hash (c ++ c))] := by
        have hpad2 : padEven [L.compute_hash (a ++ b), L.compute_hash (c ++ c)] =
            [L.compute_hash (a ++ b), L.compute_hash (c ++ c)] := by
          simp [padEven]
        rw [hpad2]
        rfl
    _ = L.compute_hash (L.compute_hash (a ++ b) ++ L.compute_hash (c ++ c)) := by
        rw [compute_merkle_root]

/-- C4 witness: the determinism conjunct applied at a concrete leaf list. -/
theorem C4_merkle_structure_witness :
    compute_merkle_root toyLogger ["x", "y"] = compute_merkle_root toyLogger ["x", "y"] :=
  (C4_merkle_structure toyLogger).2.2.2.2.2.2 ["x", "y"] ["x", "y"] rfl

/-- C8: `verify_entry` on an entry id absent from storage reports the
not-found failure, for every id and storage state. -/
theorem C8_verify_entry_not_found (L : Logger) (st : Store) (entry_id : String)
    (h : ∀ e ∈ st.audit_logs, e.id ≠ entry_id) :
    verify_entry L st entry_id = { valid := false, error := some "Entry not found" } := by
  unfold verify_entry
  have hfind : st.audit_logs.find? (fun e => e.id == entry_id) = none :=
    List.find?_eq_none.mpr fun x hx => by simpa using h x hx
  rw [hfind]

/-- C8 witness. -/
theorem C8_verify_entry_not_found_witness :
    (∀ e ∈ emptyStore.audit_logs, e.id ≠ "missing-id") ∧
      verify_entry toyLogger emptyStore "missing-id" =
        { valid := false, error := some "Entry not found" } :=
  ⟨by simp [emptyStore], C8_verify_entry_not_found toyLogger emptyStore "missing-id"
    (by simp [emptyStore])⟩

/-- The uncheckpointed range the checkpoint builder queries for
(`audit_logs.find(...)` sorted ascending by sequence, before the
`to_list(length=...)` cap). -/
def ckptRangeEntries (st : Store) (org_id : String) (from_sequence up_to_sequence : Nat) :
    List Entry :=
  List.insertionSort seqAsc
    (st.audit_logs.filter (fun e =>
      e.orgId == org_id && decide (from_sequence ≤ e.sequence) &&
        decide (e.sequence ≤ up_to_sequence)))

/-- The `from_sequence` the checkpoint builder derives from the last
checkpoint. -/
def ckptFromSeq (st : Store) (org_id : String) : Nat :=
  match lastCheckpointOf st org_id with
  | some c => c.upToSequence + 1
  | none => 1

/-- C10: the checkpoint builder fetches at most
`CHECKPOINT_INTERVAL + 10 = 110` entries from its declared range; its
`entryCount` is the number actually fetched and its `merkleRoot` covers
exactly those, so when the range holds more than 110 entries the persisted
checkpoint covers only the first 110 in ascending sequence order even
though its declared range `[fromSequence, upToSequence]` claims all of
them. -/
theorem C10_fetch_cap (L : Logger) (st : Store) (cid cts org : String) (upTo : Nat) :
    (ckptDoc L st cid cts org upTo).entryCount =
        min (CHECKPOINT_INTERVAL + 10) (ckptRangeEntries st org (ckptFromSeq st org) upTo).length ∧
      (ckptDoc L st cid cts org upTo).merkleRoot =
        compute_merkle_root L
          (((ckptRangeEntries st org (ckptFromSeq st org) upTo).take
              (CHECKPOINT_INTERVAL + 10)).map (fun e => e.entryHash)) ∧
      (ckptDoc L st cid cts org upTo).fromSequence = ckptFromSeq st org ∧
      (ckptDoc L st cid cts org upTo).upToSequence = upTo ∧
      (CHECKPOINT_INTERVAL + 10 < (ckptRangeEntries st org (ckptFromSeq st org) upTo).length →
        (ckptDoc L st cid cts org upTo).entryCount = CHECKPOINT_INTERVAL + 10 ∧
          (ckptDoc L st cid cts org upTo).entryCount <
            (ckptRangeEntries st org (ckptFromSeq st org) upTo).length) := by
  refine ⟨?_, rfl, rfl, rfl, ?_⟩
  · show ((ckptRangeEntries st org (ckptFromSeq st org) upTo).take
        (CHECKPOINT_INTERVAL + 10)).length = _
    rw [List.length_take]
  · intro hlt
    constructor
    · show ((ckptRangeEntries st org (ckptFromSeq st org) upTo).take
          (CHECKPOINT_INTERVAL + 10)).length = _
      rw [List.length_take]
      omega
    · show ((ckptRangeEntries st org (ckptFromSeq st org) upTo).take
          (CHECKPOINT_INTERVAL + 10)).length < _
      rw [List.length_take]
      omega

/-- A store holding 111 pre-existing entries of one tenant (used to
witness the 110-entry fetch cap). -/
def mkEntryC10 (i : Nat) : Entry :=
  ⟨toString i, "o", i + 1, "t", "a", "A", "E", none, [], none, none, none, "p", "h", "s", true⟩

def stC10 : Store := ⟨(List.range 111).map mkEntryC10, []⟩

/-- C10 witness: with 111 entries in the range, the created checkpoint
counts only 110 of them. -/
theorem C10_fetch_cap_witness :
    CHECKPOINT_INTERVAL + 10 < (ckptRangeEntries stC10 "o" (ckptFromSeq stC10 "o") 111).length ∧
      (ckptDoc toyLogger stC10 "ck-1" "now" "o" 111).entryCount = CHECKPOINT_INTERVAL + 10 ∧
      (ckptDoc toyLogger stC10 "ck-1" "now" "o" 111).entryCount <
        (ckptRangeEntries stC10 "o" (ckptFromSeq stC10 "o") 111).length :=
  ⟨by decide,
    ((C10_fetch_cap toyLogger stC10 "ck-1" "now" "o" 111).2.2.2.2 (by decide)).1,
    ((C10_fetch_cap toyLogger stC10 "ck-1" "now" "o" 111).2.2.2.2 (by decide)).2⟩

/-- The six-field checkpoint signing payload described by the spec
(`{tenantId, fromSequence, toSequence, entryCount, merkleRoot, timestamp}`,
under the source's field names `orgId`/`upToSequence`), for comparison with
what the code actually signs. -/
def specCheckpointSigningData (c : Checkpoint) : List (String × Jval) :=
  [("orgId", .prim (.str c.orgId)),
   ("fromSequence", .prim (.int c.fromSequence)),
   ("upToSequence", .prim (.int c.upToSequence)),
   ("entryCount", .prim (.int c.entryCount)),
   ("merkleRoot", .prim (.str c.merkleRoot)),
   ("timestamp", .prim (.str c.timestamp))]

/-- C7 counterexample: the checkpoint created by `_create_checkpoint` is
*not* signed over only the six fields `{orgId, fromSequence,
upToSequence, entryCount, merkleRoot, timestamp}` — the signed canonical
dictionary also contains the checkpoint's `id`, so the stored signature
differs from the HMAC over the six-field payload. -/
theorem C7_counterexample :
    (ckptDoc toyLogger emptyStore "ck-1" "ts0" "ORG-1" 100).signature ≠
      toyLogger.compute_hmac
        (canonical_json
          (specCheckpointSigningData (ckptDoc toyLogger emptyStore "ck-1" "ts0" "ORG-1" 100))) := by
  decide

/-- C7 (amended): every persisted checkpoint's signature is the HMAC of
the canonical JSON of exactly the seven fields `{id, orgId, fromSequence,
upToSequence, entryCount, merkleRoot, timestamp}` — the six the spec
names plus the checkpoint's `id`. -/
theorem C7_checkpoint_signature :
    (∀ (L : Logger) (calls : List Call),
      ((runCalls L emptyStore calls).checkpoints).all
        (fun c => c.signature == L.compute_hmac (canonical_json c.contentData)) = true) ∧
    (∀ (L : Logger) (st : Store) (cid cts org : String) (upTo : Nat),
      ((create_checkpoint L st cid cts org upTo).1).checkpoints =
          st.checkpoints ++ [ckptDoc L st cid cts org upTo] ∧
        (ckptDoc L st cid cts org upTo).signature =
          L.compute_hmac (canonical_json (ckptDoc L st cid cts org upTo).contentData)) := by
  constructor
  · intro L calls
    rw [List.all_eq_true]
    intro c hc
    have := (TraceInv_trace L calls).2.2.2 c hc
    simpa using this
  · intro L st cid cts org upTo
    exact ⟨rfl, ckptDoc_signature L st cid cts org upTo⟩

/-- A pre-existing checkpoint covering `[1, 100]` (for the export
counterexample). -/
def ckC6 : Checkpoint := ⟨"ck-1", "ORG-1", 1, 100, 100, "root", "ts", "sig"⟩

def stC6 : Store := ⟨[], [ckC6]⟩

/-- C6 counterexample: the checkpoint `[1,100]` intersects the requested
export range `[50,150]`, belongs to the tenant, and is stored, yet the
export package does not contain it — the code keeps only checkpoints whose
`fromSequence` is ≥ the requested start (containment, not
intersection). -/
theorem C6_counterexample :
    ckC6 ∈ stC6.checkpoints ∧ ckC6.orgId = "ORG-1" ∧
      max ckC6.fromSequence 50 ≤ min ckC6.upToSequence 150 ∧
      ckC6 ∉ (export_for_archive toyLogger stC6 "exp-ts" "ORG-1" 50 (some 150)).checkpoints := by
  decide

/-- C6 (amended): `export_for_archive` returns exactly the stored
checkpoints of the tenant whose range is *contained* in the request
(`fromSequence ≥` requested start and, when a nonzero `to_sequence` is
given, `upToSequence ≤` requested end), together with exactly the stored
entries of the tenant inside the range — provided the stores are within
the fetch caps (10000 entries / 1000 checkpoints). -/
theorem C6_export_contained (L : Logger) (st : Store) (ts org : String) (f : Nat)
    (t : Option Nat) (hE : st.audit_logs.length ≤ 10000) (hC : st.checkpoints.length ≤ 1000) :
    (∀ c : Checkpoint, c ∈ (export_for_archive L st ts org f t).checkpoints ↔
      c ∈ st.checkpoints ∧ c.orgId = org ∧ f ≤ c.fromSequence ∧
        (truthy t = true → c.upToSequence ≤ t.getD 0)) ∧
    (∀ e : Entry, e ∈ (export_for_archive L st ts org f t).entries ↔
      e ∈ st.audit_logs ∧ e.orgId = org ∧ f ≤ e.sequence ∧
        (truthy t = true → e.sequence ≤ t.getD 0)) := by
  constructor
  · intro c
    show c ∈ (st.checkpoints.filter _).take 1000 ↔ _
    rw [List.take_of_length_le (le_trans (List.length_filter_le _ _) hC), List.mem_filter]
    by_cases ht : truthy t = true
    · simp [ht, Bool.and_eq_true, and_assoc]
    · simp [ht, Bool.and_eq_true, and_assoc, Bool.not_eq_true]
  · intro e
    show e ∈ (List.insertionSort seqAsc (st.audit_logs.filter _)).take 10000 ↔ _
    rw [List.take_of_length_le
        (le_trans (le_of_eq (List.length_insertionSort _ _))
          (le_trans (List.length_filter_le _ _) hE)),
      List.mem_insertionSort, List.mem_filter]
    by_cases ht : truthy t = true
    · simp [ht, Bool.and_eq_true, and_assoc]
    · simp [ht, Bool.and_eq_true, and_assoc, Bool.not_eq_true]

/-- C6 witness. -/
theorem C6_export_contained_witness :
    stC6.audit_logs.length ≤ 10000 ∧ stC6.checkpoints.length ≤ 1000 ∧
      (ckC6 ∈ (export_for_archive toyLogger stC6 "exp-ts" "ORG-1" 50 (some 150)).checkpoints ↔
        ckC6 ∈ stC6.checkpoints ∧ ckC6.orgId = "ORG-1" ∧ 50 ≤ ckC6.fromSequence ∧
          (truthy (some 150) = true → ckC6.upToSequence ≤ (some 150 : Option Nat).getD 0)) :=
  ⟨by decide, by decide,
    (C6_export_contained toyLogger stC6 "exp-ts" "ORG-1" 50 (some 150)
      (by decide) (by decide)).1 ckC6⟩

/-! ### Canonicalization determinism -/

theorem strLt_of_le_ne {a b : String} (hle : strLe a b = true) (hne : a ≠ b) :
    strLt a b = true := by
  unfold strLe at hle
  simp only [Bool.not_eq_true'] at hle
  rcases charListLt_trichotomy a.data b.data with h | h | h
  · exact h
  · exact absurd h (by unfold strLt at hle; simp [hle])
  · exact absurd (by cases a; cases b; exact congrArg String.mk (by simpa using h)) hne

/-- Strict key ordering on dictionary items. -/
def keyStrictLt {α : Type} (a b : String × α) : Prop := strLt a.1 b.1 = true

/-- Two dictionaries that are permutations of each other with no duplicate
keys sort identically — key-sorting erases insertion order. -/
theorem insertionSort_keyLE_perm_nodup_eq {α : Type} {d₁ d₂ : List (String × α)}
    (hp : List.Perm d₁ d₂) (hn : (d₁.map Prod.fst).Nodup) :
    List.insertionSort keyLE d₁ = List.insertionSort keyLE d₂ := by
  have hs₁ : List.Pairwise keyLE (List.insertionSort keyLE d₁) :=
    List.sorted_insertionSort keyLE d₁
  have hs₂ : List.Pairwise keyLE (List.insertionSort keyLE d₂) :=
    List.sorted_insertionSort keyLE d₂
  have hperm : List.Perm (List.insertionSort keyLE d₁) (List.insertionSort keyLE d₂) :=
    (List.perm_insertionSort _ d₁).trans (hp.trans (List.perm_insertionSort _ d₂).symm)
  have hne : List.Pairwise (fun a b : String × α => a.1 ≠ b.1) d₁ := by
    rw [← List.pairwise_map]
    exact hn
  have hsymm : ∀ {x y : String × α}, x.1 ≠ y.1 → y.1 ≠ x.1 := fun h => h ∘ Eq.symm
  have hne₁ : List.Pairwise (fun a b : String × α => a.1 ≠ b.1)
      (List.insertionSort keyLE d₁) :=
    ((List.perm_insertionSort keyLE d₁).pairwise_iff hsymm).mpr hne
  have hne₂ : List.Pairwise (fun a b : String × α => a.1 ≠ b.1)
      (List.insertionSort keyLE d₂) :=
    (hperm.pairwise_iff hsymm).mp hne₁
  have hstrict₁ : List.Pairwise keyStrictLt (List.insertionSort keyLE d₁) :=
    (hs₁.and hne₁).imp fun hab => strLt_of_le_ne hab.1 hab.2
  have hstrict₂ : List.Pairwise keyStrictLt (List.insertionSort keyLE d₂) :=
    (hs₂.and hne₂).imp fun hab => strLt_of_le_ne hab.1 hab.2
  haveI : IsAntisymm (String × α) keyStrictLt :=
    ⟨fun a b h₁ h₂ => absurd h₂ (by
      unfold keyStrictLt strLt at h₁ ⊢
      simp [charListLt_asymm h₁])⟩
  exact List.eq_of_perm_of_sorted hperm hstrict₁ hstrict₂

/-- Same-content dictionaries (no duplicate keys, any insertion order)
serialize to identical bytes. -/
theorem dumpObj_perm {d₁ d₂ : Jobj} (hp : List.Perm d₁ d₂)
    (hn : (d₁.map Prod.fst).Nodup) : dumpObj d₁ = dumpObj d₂ := by
  unfold dumpObj
  rw [insertionSort_keyLE_perm_nodup_eq hp hn]

set_option maxRecDepth 8192 in
set_option maxHeartbeats 2000000 in
/-- C9: canonicalization at the hashing boundary is deterministic: keys
are sorted, `","`/`":"` are the only separators with no extra whitespace,
every field key is present even when its value is `None` (rendered as
`null`, distinct from omitting the key), and logically identical entry
content — in particular a `details` map in any insertion order — always
canonicalizes to identical bytes. -/
theorem C9_canonicalization :
    (∀ (id orgId : String) (seq : Nat) (ts actor action entity : String)
        (entityId : Option String) (details : Jobj) (reqId ip ua : Option String)
        (prev : String),
      canonical_json (entryContentData id orgId seq ts actor action entity entityId details
          reqId ip ua prev) =
        "\x7b" ++ String.intercalate ","
          ["\"action\":" ++ jsonString action,
           "\"actor\":" ++ jsonString actor,
           "\"details\":" ++ dumpObj details,
           "\"entity\":" ++ jsonString entity,
           "\"entityId\":" ++ dumpVal (optPrim entityId),
           "\"id\":" ++ jsonString id,
           "\"ipAddress\":" ++ dumpVal (optPrim ip),
           "\"orgId\":" ++ jsonString orgId,
           "\"prevHash\":" ++ jsonString prev,
           "\"requestId\":" ++ dumpVal (optPrim reqId),
           "\"sequence\":" ++ dumpPrim (.int seq),
           "\"timestamp\":" ++ jsonString ts,
           "\"userAgent\":" ++ dumpVal (optPrim ua)] ++ "\x7d") ∧
    (optPrim none = Jval.prim Jprim.null ∧ dumpVal (optPrim none) = "null") ∧
    (∀ (id orgId : String) (seq : Nat) (ts actor action entity : String)
        (entityId : Option String) (d₁ d₂ : Jobj) (reqId ip ua : Option String)
        (prev : String),
      List.Perm d₁ d₂ → (d₁.map Prod.fst).Nodup →
      canonical_json (entryContentData id orgId seq ts actor action entity entityId d₁
          reqId ip ua prev) =
        canonical_json (entryContentData id orgId seq ts actor action entity entityId d₂
          reqId ip ua prev)) ∧
    canonical_json (entryContentData "i" "o" 1 "t" "ac" "a" "e" none [] none none none "p") ≠
      canonical_json ((entryContentData "i" "o" 1 "t" "ac" "a" "e" none [] none none none
          "p").filter (fun kv => kv.1 != "entityId")) ∧
    canonical_json (entryContentData "i" "o" 1 "t" "ac" "a" "e" none [("k", .str "v")] none
        none none "p") =
      "\x7b\"action\":\"a\",\"actor\":\"ac\",\"details\":\x7b\"k\":\"v\"\x7d,\"entity\":\"e\",\"entityId\":null,\"id\":\"i\",\"ipAddress\":null,\"orgId\":\"o\",\"prevHash\":\"p\",\"requestId\":null,\"sequence\":1,\"timestamp\":\"t\",\"userAgent\":null\x7d" := by
  refine ⟨fun id orgId seq ts actor action entity entityId details reqId ip ua prev => rfl,
    ⟨rfl, rfl⟩, ?_, by decide, by decide⟩
  intro id orgId seq ts actor action entity entityId d₁ d₂ reqId ip ua prev hp hn
  have key : ∀ d : Jobj,
      canonical_json (entryContentData id orgId seq ts actor action entity entityId d
          reqId ip ua prev) =
        "\x7b" ++ String.intercalate ","
          ["\"action\":" ++ jsonString action,
           "\"actor\":" ++ jsonString actor,
           "\"details\":" ++ dumpObj d,
           "\"entity\":" ++ jsonString entity,
           "\"entityId\":" ++ dumpVal (optPrim entityId),
           "\"id\":" ++ jsonString id,
           "\"ipAddress\":" ++ dumpVal (optPrim ip),
           "\"orgId\":" ++ jsonString orgId,
           "\"prevHash\":" ++ jsonString prev,
           "\"requestId\":" ++ dumpVal (optPrim reqId),
           "\"sequence\":" ++ dumpPrim (.int seq),
           "\"timestamp\":" ++ jsonString ts,
           "\"userAgent\":" ++ dumpVal (optPrim ua)] ++ "\x7d" := fun d => rfl
  rw [key d₁, key d₂, dumpObj_perm hp hn]

/-- C9 witness: a two-key `details` map in either insertion order yields
the same canonical bytes. -/
theorem C9_canonicalization_witness :
    List.Perm [("b", Jprim.int 1), ("a", Jprim.str "x")]
        [("a", Jprim.str "x"), ("b", Jprim.int 1)] ∧
      ([("b", Jprim.int 1), ("a", Jprim.str "x")].map Prod.fst).Nodup ∧
      canonical_json (entryContentData "i" "o" 1 "t" "ac" "a" "e" none
          [("b", Jprim.int 1), ("a", Jprim.str "x")] none none none "p") =
        canonical_json (entryContentData "i" "o" 1 "t" "ac" "a" "e" none
          [("a", Jprim.str "x"), ("b", Jprim.int 1)] none none none "p") :=
  ⟨by decide, by decide,
    C9_canonicalization.2.2.1 "i" "o" 1 "t" "ac" "a" "e" none
      [("b", Jprim.int 1), ("a", Jprim.str "x")] [("a", Jprim.str "x"), ("b", Jprim.int 1)]
      none none none "p" (by decide) (by decide)⟩

/-! ### Tampering with one stored entry -/

/-- Overwrite the `action` field of the stored entry with id `eid`,
leaving every other stored field (including `entryHash` and `signature`)
untouched — direct corruption in storage. -/
def tamperAction (st : Store) (eid newAction : String) : Store :=
  { st with
    audit_logs :=
      st.audit_logs.map fun e => if e.id = eid then { e with action := newAction } else e }

/-- The per-entry `integrity_failure` records the chain walk produces. -/
def integrityIssues (L : Logger) (st : Store) : List Entry → List Issue
  | [] => []
  | e :: rest =>
    (let result := verify_entry L st e.id
     if result.valid then [] else
       [⟨e.sequence, "integrity_failure", result.error.getD ""⟩]) ++
    integrityIssues L st rest

/-- On an intact stored-hash chain the walk raises no `chain_break`; all
its issues are per-entry integrity failures. -/
theorem verifyChainLoop_of_chainLinked (L : Logger) (st : Store) :
    ∀ {p : String} {l : List Entry}, chainLinked p l →
      verifyChainLoop L st p l = integrityIssues L st l
  | _, [], _ => rfl
  | p, e :: rest, hl => by
    obtain ⟨h₁, h₂⟩ := hl
    show (if e.prevHash ≠ p then _ else []) ++ _ ++ _ = _
    rw [if_neg (fun hne => hne h₁), List.nil_append,
      verifyChainLoop_of_chainLinked L st h₂]
    rfl

theorem integrityIssues_append (L : Logger) (st : Store) :
    ∀ (l₁ l₂ : List Entry),
      integrityIssues L st (l₁ ++ l₂) = integrityIssues L st l₁ ++ integrityIssues L st l₂
  | [], l₂ => rfl
  | e :: rest, l₂ => by
    show _ ++ integrityIssues L st (rest ++ l₂) = (_ ++ integrityIssues L st rest) ++ _
    rw [integrityIssues_append L st rest l₂, List.append_assoc]

theorem integrityIssues_all_valid (L : Logger) (st : Store) :
    ∀ {l : List Entry}, (∀ e ∈ l, (verify_entry L st e.id).valid = true) →
      integrityIssues L st l = []
  | [], _ => rfl
  | e :: rest, h => by
    unfold integrityIssues
    rw [integrityIssues_all_valid L st fun x hx => h x (List.mem_cons_of_mem e hx)]
    simp [h e (List.mem_cons_self e rest)]

/-- A content-only rewrite of stored entries preserves the chain shape. -/
theorem chainFrom_map (f : Entry → Entry)
    (hf : ∀ e, (f e).sequence = e.sequence ∧ (f e).prevHash = e.prevHash ∧
      (f e).entryHash = e.entryHash) :
    ∀ {p : String} {n : Nat} {l : List Entry}, chainFrom p n l → chainFrom p n (l.map f)
  | _, _, [], _ => trivial
  | p, n, e :: rest, ⟨h₁, h₂, h₃⟩ => by
    refine ⟨(hf e).2.1.trans h₁, (hf e).1.trans h₂, ?_⟩
    rw [(hf e).2.2]
    exact chainFrom_map f hf h₃

/-- `find_one({"id": ...})` on a store whose ids are unique returns the
member itself. -/
theorem find?_id_of_nodup :
    ∀ {l : List Entry}, (l.map Entry.id).Nodup → ∀ {e : Entry}, e ∈ l →
      l.find? (fun x => x.id == e.id) = some e
  | [], _, e, he => absurd he (List.not_mem_nil e)
  | x :: rest, hn, e, he => by
    rw [List.map_cons, List.nodup_cons] at hn
    rcases List.mem_cons.mp he with rfl | he'
    · simp [List.find?]
    · rw [List.find?_cons]
      have hxne : (x.id == e.id) = false := by
        refine beq_eq_false_iff_ne.mpr fun hxe => hn.1 ?_
        rw [hxe]
        exact List.mem_map_of_mem Entry.id he'
      rw [hxne]
      exact find?_id_of_nodup hn.2 he'

/-- `verify_entry` succeeds on a found entry whose stored hash and
signature recompute. -/
theorem verify_entry_valid_of_found (L : Logger) (st : Store) (q : String) (e : Entry)
    (hfind : st.audit_logs.find? (fun x => x.id == q) = some e)
    (hh : e.entryHash = L.compute_hash (canonical_json e.contentData))
    (hs : e.signature = L.compute_hmac (canonical_json e.contentData ++ e.entryHash)) :
    verify_entry L st q = { valid := true, entry_id := some q } := by
  unfold verify_entry
  rw [hfind]
  dsimp only
  rw [← hh, if_neg (fun hne => hne rfl), ← hs, if_neg (fun hne => hne rfl)]

/-- `verify_entry` reports the hash-mismatch failure on a found entry
whose stored hash does not recompute. -/
theorem verify_entry_mismatch_of_found (L : Logger) (st : Store) (q : String) (e : Entry)
    (hfind : st.audit_logs.find? (fun x => x.id == q) = some e)
    (hh : e.entryHash ≠ L.compute_hash (canonical_json e.contentData)) :
    verify_entry L st q =
      { valid := false, error := some "Hash mismatch - content tampered" } := by
  unfold verify_entry
  rw [hfind]
  dsimp only
  rw [if_pos hh]

/-- C2: an entry created by `log_event` and stored unmodified verifies:
recomputing the SHA-256 of the canonical JSON of its content (including
`prevHash`) reproduces the stored `entryHash`, and recomputing the HMAC
over that canonical string concatenated with the `entryHash` reproduces
the stored `signature`, so `verify_entry` on its id returns valid — both
for the entry just created (first conjunct) and for every entry of any
ledger built by `log_event` from empty, as long as ids are unique (second
conjunct). -/
theorem C2_round_trip :
    (∀ (L : Logger) (st : Store) (env : Env) (a : LogArgs),
      (∀ e ∈ st.audit_logs, e.id ≠ env.entry_id) →
      verify_entry L ((log_event L st env a).1) env.entry_id =
        { valid := true, entry_id := some env.entry_id }) ∧
    (∀ (L : Logger) (calls : List Call) (e : Entry),
      ((runCalls L emptyStore calls).audit_logs.map Entry.id).Nodup →
      e ∈ (runCalls L emptyStore calls).audit_logs →
      verify_entry L (runCalls L emptyStore calls) e.id =
        { valid := true, entry_id := some e.id }) := by
  constructor
  · intro L st env a h
    unfold verify_entry
    have hfind : ((log_event L st env a).1).audit_logs.find? (fun e => e.id == env.entry_id) =
        some (logDoc L st env a) := by
      rw [log_event_audit_logs, List.find?_append]
      have h1 : st.audit_logs.find? (fun e => e.id == env.entry_id) = none :=
        List.find?_eq_none.mpr fun x hx => by simpa using h x hx
      rw [h1]
      simp [List.find?, logDoc_id]
    rw [hfind]
    dsimp only
    rw [← logDoc_entryHash L st env a]
    rw [if_neg (fun hne => hne rfl)]
    rw [← logDoc_signature L st env a]
    rw [if_neg (fun hne => hne rfl)]
  · intro L calls e hn he
    have hsl := (TraceInv_trace L calls).2.2.1 e he
    exact verify_entry_valid_of_found L _ e.id e (find?_id_of_nodup hn he) hsl.1 hsl.2

/-- C2 witness. -/
theorem C2_round_trip_witness :
    (∀ e ∈ emptyStore.audit_logs, e.id ≠ "entry-1") ∧
      verify_entry toyLogger
          ((log_event toyLogger emptyStore
              ⟨"2026-01-01T00:00:00+00:00", "entry-1", "ck-1", "2026-01-01T00:00:01+00:00"⟩
              { actor := "alice", org_id := "ORG-1", action := "LOGIN", entity := "session" }).1)
          "entry-1" =
        { valid := true, entry_id := some "entry-1" } :=
  ⟨by simp [emptyStore],
    C2_round_trip.1 toyLogger emptyStore
      ⟨"2026-01-01T00:00:00+00:00", "entry-1", "ck-1", "2026-01-01T00:00:01+00:00"⟩
      { actor := "alice", org_id := "ORG-1", action := "LOGIN", entity := "session" }
      (by simp [emptyStore])⟩

/-- Store-level tamper-detection: in a store whose `org` entries form a
valid sealed chain with unique ids, corrupting the `action` of the entry
`e₀` (stored hash/signature untouched) makes `verify_chain` report exactly
one `integrity_failure` at `e₀.sequence`, no `chain_break`, and a full
`totalVerified` count. -/
theorem verify_chain_tampered (L : Logger) (st : Store) (org eid newAction : String)
    (e₀ : Entry) (limit : Nat)
    (hchain : chainFrom zeroHash 1 (entriesOf st org))
    (hseal : SealInv L st)
    (hn : (st.audit_logs.map Entry.id).Nodup)
    (hmem : e₀ ∈ st.audit_logs)
    (hid : e₀.id = eid)
    (horg : e₀.orgId = org)
    (hlimit : (entriesOf st org).length ≤ limit)
    (htamper : ({ e₀ with action := newAction } : Entry).entryHash ≠
      L.compute_hash (canonical_json ({ e₀ with action := newAction } : Entry).contentData)) :
    verify_chain L (tamperAction st eid newAction) org limit =
      { valid := false,
        totalVerified := (entriesOf st org).length,
        issues := [⟨e₀.sequence, "integrity_failure", "Hash mismatch - content tampered"⟩],
        lastSequence := some ((entriesOf st org).length) } := by
  set f : Entry → Entry := fun e => if e.id = eid then { e with action := newAction } else e
    with hfdef
  have hfpres : ∀ e : Entry, (f e).id = e.id ∧ (f e).orgId = e.orgId ∧
      (f e).sequence = e.sequence ∧ (f e).prevHash = e.prevHash ∧
      (f e).entryHash = e.entryHash ∧ (f e).signature = e.signature := by
    intro e
    by_cases hc : e.id = eid <;> simp [hfdef, hc]
  have hlogs : (tamperAction st eid newAction).audit_logs = st.audit_logs.map f := rfl
  have hentries : entriesOf (tamperAction st eid newAction) org = (entriesOf st org).map f := by
    show List.filter (fun e => e.orgId == org) (st.audit_logs.map f) = _
    rw [List.filter_map]
    congr 1
    refine List.filter_congr fun x _ => ?_
    show ((f x).orgId == org) = (x.orgId == org)
    rw [(hfpres x).2.1]
  have hchainM : chainFrom zeroHash 1 ((entriesOf st org).map f) :=
    chainFrom_map f (fun e => ⟨(hfpres e).2.2.1, (hfpres e).2.2.2.1, (hfpres e).2.2.2.2.1⟩)
      hchain
  have hpwM := chainFrom_pairwise_lt hchainM
  have hlenM : ((entriesOf st org).map f).length = (entriesOf st org).length :=
    List.length_map _ _
  have hscan :
      (List.insertionSort seqAsc (entriesOf (tamperAction st eid newAction) org)).take limit =
        (entriesOf st org).map f := by
    rw [hentries, insertionSort_eq_self_of_key_lt Entry.sequence seqAsc (fun _ _ h => h) _ hpwM,
      List.take_of_length_le (by rw [hlenM]; exact hlimit)]
  have he₀f : e₀ ∈ entriesOf st org := List.mem_filter.mpr ⟨hmem, by simp [horg]⟩
  obtain ⟨l₁, l₂, hdec⟩ := List.append_of_mem he₀f
  have hnF : ((entriesOf st org).map Entry.id).Nodup :=
    List.Nodup.sublist (List.Sublist.map Entry.id (List.filter_sublist _)) hn
  have hids : ∀ e, (e ∈ l₁ ∨ e ∈ l₂) → e.id ≠ eid := by
    rw [hdec] at hnF
    simp only [List.map_append, List.map_cons] at hnF
    rw [List.nodup_append] at hnF
    intro e he hee
    rcases he with he | he
    · exact hnF.2.2 (List.mem_map_of_mem Entry.id he)
        (by rw [hee, ← hid]; exact List.mem_cons_self _ _)
    · have : e₀.id ∉ l₂.map Entry.id := (List.nodup_cons.mp hnF.2.1).1
      exact this (by rw [hid, ← hee]; exact List.mem_map_of_mem Entry.id he)
  have hfixed : ∀ e, (e ∈ l₁ ∨ e ∈ l₂) → f e = e := by
    intro e he
    simp [hfdef, hids e he]
  have hmemside : ∀ e, (e ∈ l₁ ∨ e ∈ l₂) → e ∈ st.audit_logs := by
    intro e he
    have hin : e ∈ entriesOf st org := by
      rw [hdec]
      rcases he with he | he
      · exact List.mem_append.mpr (Or.inl he)
      · exact List.mem_append.mpr (Or.inr (List.mem_cons_of_mem e₀ he))
    exact (List.mem_filter.mp hin).1
  have hpeq : ∀ q : String, ((fun x : Entry => x.id == q) ∘ f) = fun x : Entry => x.id == q := by
    intro q
    funext x
    show ((f x).id == q) = (x.id == q)
    rw [(hfpres x).1]
  have hvalid : ∀ e, (e ∈ l₁ ∨ e ∈ l₂) →
      (verify_entry L (tamperAction st eid newAction) e.id).valid = true := by
    intro e he
    have hfind : (tamperAction st eid newAction).audit_logs.find? (fun x => x.id == e.id) =
        some e := by
      rw [hlogs, List.find?_map, hpeq e.id, find?_id_of_nodup hn (hmemside e he),
        Option.map_some', hfixed e he]
    have hsl := hseal e (hmemside e he)
    rw [verify_entry_valid_of_found L _ e.id e hfind hsl.1 hsl.2]
  have hfinde₀ : (tamperAction st eid newAction).audit_logs.find? (fun x => x.id == e₀.id) =
      some (f e₀) := by
    rw [hlogs, List.find?_map, hpeq e₀.id, find?_id_of_nodup hn hmem, Option.map_some']
  have hfe₀ : f e₀ = { e₀ with action := newAction } := by
    simp [hfdef, hid]
  have hbad : verify_entry L (tamperAction st eid newAction) e₀.id =
      { valid := false, error := some "Hash mismatch - content tampered" } := by
    refine verify_entry_mismatch_of_found L _ e₀.id (f e₀) hfinde₀ ?_
    rw [hfe₀]
    exact htamper
  have hlinkM : chainLinked zeroHash ((entriesOf st org).map f) :=
    chainFrom_chainLinked hchainM
  have hII : ∀ (l : List Entry), (∀ e ∈ l, e ∈ l₁ ∨ e ∈ l₂) →
      integrityIssues L (tamperAction st eid newAction) (l.map f) = [] := by
    intro l hl
    refine integrityIssues_all_valid L _ fun x hx => ?_
    obtain ⟨e, he, rfl⟩ := List.mem_map.mp hx
    rw [hfixed e (hl e he)]
    exact hvalid e (hl e he)
  have hisseq :
      verifyChainLoop L (tamperAction st eid newAction) zeroHash ((entriesOf st org).map f) =
        [⟨e₀.sequence, "integrity_failure", "Hash mismatch - content tampered"⟩] := by
    rw [verifyChainLoop_of_chainLinked L _ hlinkM, hdec, List.map_append, List.map_cons,
      integrityIssues_append]
    rw [hII l₁ fun e he => Or.inl he]
    unfold integrityIssues
    rw [hII l₂ fun e he => Or.inr he]
    rw [show (f e₀).id = e₀.id from (hfpres e₀).1, hbad]
    simp [(hfpres e₀).2.2.1]
  have hne : (entriesOf st org).map f ≠ [] := by
    rw [hdec]
    simp
  unfold verify_chain
  dsimp only
  rw [hscan, if_neg (fun hemp => hne (List.isEmpty_iff.mp hemp)), hisseq]
  cases hgl : ((entriesOf st org).map f).getLast? with
  | none => exact absurd (List.getLast?_eq_none_iff.mp hgl) hne
  | some elast =>
    have hseq := chainFrom_getLast?_seq hchainM elast hgl
    rw [hlenM] at hseq
    have helast : elast.sequence = (entriesOf st org).length := by omega
    simp [ChainReport.mk.injEq, hlenM, helast]

/-- C3: `verify_chain` never stops early and advances its expected hash
using each entry's *stored* `entryHash`, not the recomputed one: if
exactly one content field (`action`) of the entry at sequence k is mutated
in storage — its stored `entryHash` untouched — in an otherwise valid
chain built by `log_event` from an empty ledger, `verify_chain` reports
`valid = false` with exactly one `integrity_failure` issue at sequence k,
no `chain_break` issue at k+1 (or anywhere), and `totalVerified` equal to
the full number of scanned entries.  `htamper` is the collision-freedom
instance that SHA-256 supplies for the mutated content. -/
theorem C3_tamper_detection (L : Logger) (calls : List Call) (org eid newAction : String)
    (e₀ : Entry) (limit : Nat)
    (hn : ((runCalls L emptyStore calls).audit_logs.map Entry.id).Nodup)
    (hmem : e₀ ∈ (runCalls L emptyStore calls).audit_logs)
    (hid : e₀.id = eid)
    (horg : e₀.orgId = org)
    (hlimit : (entriesOf (runCalls L emptyStore calls) org).length ≤ limit)
    (htamper : ({ e₀ with action := newAction } : Entry).entryHash ≠
      L.compute_hash (canonical_json ({ e₀ with action := newAction } : Entry).contentData)) :
    verify_chain L (tamperAction (runCalls L emptyStore calls) eid newAction) org limit =
      { valid := false,
        totalVerified := (entriesOf (runCalls L emptyStore calls) org).length,
        issues := [⟨e₀.sequence, "integrity_failure", "Hash mismatch - content tampered"⟩],
        lastSequence := some ((entriesOf (runCalls L emptyStore calls) org).length) } :=
  verify_chain_tampered L (runCalls L emptyStore calls) org eid newAction e₀ limit
    ((TraceInv_trace L calls).1 org) (TraceInv_trace L calls).2.2.1 hn hmem hid horg hlimit
    htamper

/-- The spec's three-event scenario: `LOGIN`, `VIEW`, `LOGIN` for one
tenant. -/
def c3Calls : List Call :=
  [⟨⟨"1", "A", "x", "y"⟩, { actor := "u", org_id := "O", action := "L", entity := "s" }⟩,
   ⟨⟨"2", "B", "x", "y"⟩, { actor := "u", org_id := "O", action := "V", entity := "s" }⟩,
   ⟨⟨"3", "C", "x", "y"⟩, { actor := "u", org_id := "O", action := "L", entity := "s" }⟩]

def stC3 : Store := runCalls toyLogger emptyStore c3Calls

set_option maxRecDepth 100000 in
def eC3 : Entry := stC3.audit_logs.get ⟨1, by decide⟩

set_option maxRecDepth 100000 in
set_option maxHeartbeats 4000000 in
/-- C3 witness: corrupting entry #2's `action` in the three-entry
scenario yields exactly one `integrity_failure` at sequence 2 and no
`chain_break` at sequence 3. -/
theorem C3_tamper_detection_witness :
    (stC3.audit_logs.map Entry.id).Nodup ∧ eC3 ∈ stC3.audit_logs ∧ eC3.id = "B" ∧
      eC3.orgId = "O" ∧ (entriesOf stC3 "O").length ≤ 1000 ∧
      ({ eC3 with action := "CORRUPT" } : Entry).entryHash ≠
        toyLogger.compute_hash
          (canonical_json ({ eC3 with action := "CORRUPT" } : Entry).contentData) ∧
      verify_chain toyLogger (tamperAction stC3 "B" "CORRUPT") "O" 1000 =
        { valid := false, totalVerified := 3,
          issues := [⟨2, "integrity_failure", "Hash mismatch - content tampered"⟩],
          lastSequence := some 3 } := by
  refine ⟨by decide, by decide, by decide, by decide, by decide, by decide, ?_⟩
  exact (C3_tamper_detection toyLogger c3Calls "O" "B" "CORRUPT" eC3 1000 (by decide)
    (by decide) (by decide) (by decide) (by decide) (by decide)).trans (by decide)
